import Mathlib

/-!
# asc-go: chunked upload operations (`asc/upload_operation.go`)

A shallow embedding of `UploadOperation.chunk`, `UploadOperation.request`,
`Client.sendChunk` and `UploadOperations.Upload`.

Modelling decisions.

* Go pointers to scalars (`*int`, `*string`) are `Option`s: `nil` is `none`.
  Go's `int` is 64 bits wide and `int64(*op.Offset)` is the identity on it, so
  offsets and lengths are integers and no arithmetic of the program can wrap.
* `*os.File` is an open regular file: its content, its cursor, and the list of
  calls issued on the handle so far.  `Seek(off, 0)` fails for a negative
  position and otherwise sets the cursor (also past the end of the file).
  `Read(b)` returns `0, nil` for an empty `b`, `0, io.EOF` when the cursor is at
  or past the end, and otherwise copies `min (len b) (size - cursor)` bytes, and
  never more than `maxRW` = 2^30 bytes in one call, into the front of `b` and
  reports no error.
* `make([]byte, n)` yields `n` zero bytes.  It panics for a negative `n` and
  for an `n` beyond what can be allocated.  `chunkWith cap` is `chunk` on a
  machine that can allocate `cap` bytes; `chunk` itself is the case of
  `maxAlloc` = 2^48, the bound of the runtime on 64-bit platforms, beyond
  which `make` panics on every machine.
* `net/http`: `http.NewRequest` is modelled by its check of method and URL
  (a parameter, `Env.newRequestCheck`), by the method it stores (`GET` for an
  empty method), by the URL it stores (the parsed URL, a parameter,
  `Env.parsedURL`) and by the body.  `http.Header` is a map from canonical
  names to lists of values: `Header.Add` puts a value under
  `CanonicalMIMEHeaderKey` of the name.  The transport `Client.do` is a
  parameter (`Env.transport`).
-/

namespace Asc

/-- A byte of a file or of a buffer. -/
abbrev Byte := Fin 256

/-- Error values that the embedded code can produce or pass on. -/
inductive GoError where
  /-- An error made by `errors.New` with the given message. -/
  | errorsNew (msg : String)
  /-- The error of a `Seek` to a negative position. -/
  | seekInvalid (off : Int)
  /-- The sentinel `io.EOF`. -/
  | eof
  /-- An error returned by `http.NewRequest`. -/
  | http (code : Nat)
  /-- An error returned by `Client.do`. -/
  | transport (code : Nat)
  deriving DecidableEq, Repr

/-- The error of `chunk` for an operation without offset or length. -/
def boundsError : GoError :=
  GoError.errorsNew "could not establish bounds of upload operation"

/-- The error of `request` for an operation without method or url. -/
def destinationError : GoError :=
  GoError.errorsNew "could not establish destination of upload operation"

/-- Model of `UploadOperationHeader`. -/
structure UploadOperationHeader where
  Name : Option String
  Value : Option String
  deriving DecidableEq, Repr

/-- Model of `UploadOperation`. -/
structure UploadOperation where
  Length : Option Int
  Method : Option String
  Offset : Option Int
  RequestHeaders : List UploadOperationHeader
  URL : Option String
  deriving DecidableEq, Repr

/-- Model of `UploadOperationError`. -/
structure UploadOperationError where
  Operation : UploadOperation
  Err : GoError
  deriving DecidableEq, Repr

/-- A call issued on a file handle. -/
inductive FileCall where
  | seek (off : Int)
  | read (len : Nat)
  deriving DecidableEq, Repr

/-- An open regular file: content, cursor and the calls issued so far. -/
structure File where
  content : List Byte
  pos : Nat
  calls : List FileCall
  deriving DecidableEq, Repr

/-- Model of `f.Seek(off, 0)`: the error, if any, and the handle afterwards. -/
def File.Seek (f : File) (off : Int) : Option GoError × File :=
  if off < 0 then
    (some (GoError.seekInvalid off), { f with calls := f.calls ++ [FileCall.seek off] })
  else
    (none, { f with pos := off.toNat, calls := f.calls ++ [FileCall.seek off] })

/-- The most bytes that one call of `Read` on an `*os.File` moves (`maxRW` in
`internal/poll`). -/
def maxRW : Nat := 1073741824

/-- Model of `f.Read(data)` for a `data` of `data.length` bytes: the buffer
afterwards, the error, if any, and the handle afterwards. -/
def File.Read (f : File) (data : List Byte) : List Byte × Option GoError × File :=
  let g : File := { f with calls := f.calls ++ [FileCall.read data.length] }
  if data.length = 0 then
    (data, none, g)
  else
    let got := (f.content.drop f.pos).take (min data.length maxRW)
    if got.length = 0 then
      (data, some GoError.eof, g)
    else
      (got ++ data.drop got.length, none, { g with pos := f.pos + got.length })

/-- What a call of `chunk` comes to. -/
inductive ChunkResult where
  /-- A reader over the given bytes and a nil error. -/
  | ret (buf : List Byte)
  /-- A nil reader and the given error. -/
  | err (e : GoError)
  /-- The call does not return: `make` panics, for a negative length or for one
  out of range, or the program dies for want of memory. -/
  | abort
  deriving DecidableEq, Repr

/-- The largest number of bytes that `make([]byte, n)` allocates on any
machine: the bound `maxAlloc` of the Go runtime on 64-bit platforms, 2^48. -/
def maxAlloc : Int := 281474976710656

/-- Model of `(*UploadOperation).chunk` on a machine on which `make([]byte, n)`
succeeds for `0 ≤ n ≤ cap` and fails otherwise. -/
def chunkWith (cap : Int) (op : UploadOperation) (f : File) : ChunkResult × File :=
  match op.Offset, op.Length with
  | some off, some len =>
    match f.Seek off with
    | (some e, f1) => (ChunkResult.err e, f1)
    | (none, f1) =>
      if len < 0 ∨ cap < len then
        (ChunkResult.abort, f1)
      else
        match f1.Read (List.replicate len.toNat 0) with
        | (_, some e, f2) => (ChunkResult.err e, f2)
        | (data, none, f2) => (ChunkResult.ret data, f2)
  | _, _ => (ChunkResult.err boundsError, f)

/-- Model of `(*UploadOperation).chunk`, with all the memory that the runtime
can give. -/
def chunk (op : UploadOperation) (f : File) : ChunkResult × File :=
  chunkWith maxAlloc op f

/-- Whether a byte may stand in a header name (`validHeaderFieldByte` of
`net/textproto`): a letter, a digit or one of the fifteen token signs, given
by their codes. -/
def validHeaderFieldByte (c : Char) : Bool :=
  c.isAlphanum || [33, 35, 36, 37, 38, 39, 42, 43, 45, 46, 94, 95, 96, 124, 126].contains c.toNat

/-- The canonical casing of a header name: upper case at the start and after
each `-`, lower case elsewhere. -/
def canonicalBytes : Bool → List Char → List Char
  | _, [] => []
  | upper, c :: cs =>
    let c1 := if upper then c.toUpper else c.toLower
    c1 :: canonicalBytes (c1 == '-') cs

/-- Model of `textproto.CanonicalMIMEHeaderKey`: a name made of valid bytes
only is put in canonical casing, any other name is returned as it is. -/
def CanonicalMIMEHeaderKey (s : String) : String :=
  if s.data.all validHeaderFieldByte then String.mk (canonicalBytes true s.data) else s

/-- Model of `http.Header`, a map from names to lists of values: one entry per
name.  The order of the entries is no part of the header, a Go map has none;
`HTTPHeader.entry` is the way to look at a header. -/
structure HTTPHeader where
  entries : List (String × List String)
  deriving DecidableEq, Repr

/-- Appends a value to the entry of a name, or starts the entry. -/
def appendValue : List (String × List String) → String → String → List (String × List String)
  | [], k, v => [(k, [v])]
  | (k1, vs) :: rest, k, v =>
    if k1 = k then (k1, vs ++ [v]) :: rest else (k1, vs) :: appendValue rest k v

/-- Model of `Header.Add`: the value is appended under the canonical name. -/
def HTTPHeader.Add (h : HTTPHeader) (key value : String) : HTTPHeader :=
  { entries := appendValue h.entries (CanonicalMIMEHeaderKey key) value }

/-- The values that a list of entries holds under a name. -/
def lookupValues : List (String × List String) → String → List String
  | [], _ => []
  | (k1, vs) :: rest, k => if k1 = k then vs else lookupValues rest k

/-- The map access `h[key]`: the values held under exactly this name, in the
order in which they were added. -/
def HTTPHeader.entry (h : HTTPHeader) (key : String) : List String :=
  lookupValues h.entries key

/-- Model of `*http.Request` as far as this code sets it. -/
structure Request where
  Method : String
  URL : String
  Body : List Byte
  Header : HTTPHeader
  deriving DecidableEq, Repr

/-- The collaborators of the upload code that are not part of it. -/
structure Env where
  /-- The check of `http.NewRequest` on a method and a URL: `none` when it
  accepts them, otherwise its error. -/
  newRequestCheck : String → String → Option GoError
  /-- The URL that `http.NewRequest` stores for an accepted URL string: the
  result of `url.Parse`, with an empty port removed, written out again. -/
  parsedURL : String → String
  /-- The call `c.do(ctx, req, nil)` made for the operation at the given index:
  `none` when it succeeds, otherwise its error. -/
  transport : Nat → Request → Option GoError

/-- Model of the loop over `op.RequestHeaders` in `request`: one `Header.Add`
per header that has both a name and a value. -/
def addHeaders : List UploadOperationHeader → HTTPHeader → HTTPHeader
  | [], acc => acc
  | h :: rest, acc =>
    match h.Name, h.Value with
    | some n, some v => addHeaders rest (acc.Add n v)
    | _, _ => addHeaders rest acc

/-- Model of `(*UploadOperation).request`.  `http.NewRequest` reads an empty
method as `GET`, stores the parsed URL and starts with an empty header. -/
def request (env : Env) (op : UploadOperation) (data : List Byte) : Except GoError Request :=
  match op.Method, op.URL with
  | some m, some u =>
    match env.newRequestCheck m u with
    | some e => Except.error e
    | none =>
      Except.ok
        { Method := if m = "" then "GET" else m, URL := env.parsedURL u, Body := data,
          Header := addHeaders op.RequestHeaders { entries := [] } }
  | _, _ => Except.error destinationError

/-- What one run of `sendChunk` does on its own: the value it sends on `errs`,
if any, and the requests it hands to `c.do`. -/
structure SendChunkEffect where
  errs : Option UploadOperationError
  calls : List Request
  deriving DecidableEq, Repr

/-- Model of `(*Client).sendChunk`, run for the operation at index `i` with
the bytes of its chunk. -/
def sendChunk (env : Env) (i : Nat) (op : UploadOperation) (data : List Byte) : SendChunkEffect :=
  match request env op data with
  | Except.error e => { errs := some { Operation := op, Err := e }, calls := [] }
  | Except.ok req =>
    match env.transport i req with
    | some e => { errs := some { Operation := op, Err := e }, calls := [req] }
    | none => { errs := none, calls := [req] }

/-! ## `Upload` as a system of goroutines

`Upload` runs in the caller's goroutine, starts one goroutine per extracted
chunk (`sendChunk`) and one that waits for the wait group and closes `errs`.
`errs` is unbuffered: a send completes only together with a receive made by
another goroutine, and the only receive is the `range` loop at the end of
`Upload`. -/

/-- Where the goroutine running `Upload` stands. -/
inductive MainPC where
  /-- At the head of the loop over `ops`, about to handle `ops[i]`. -/
  | loop (i : Nat)
  /-- In `errs <- UploadOperationError{...}` after a failed `chunk` of `ops[i]`. -/
  | sendErr (i : Nat) (e : UploadOperationError)
  /-- In the receive of `for err := range errs`. -/
  | recv
  /-- `Upload` has returned; `none` is a nil error. -/
  | returned (r : Option UploadOperationError)
  /-- `chunk` has panicked. -/
  | panicked
  deriving DecidableEq, Repr

/-- Where a goroutine running `sendChunk` stands. -/
inductive WorkerPC where
  /-- About to call `op.request(chunk)`. -/
  | start (i : Nat) (op : UploadOperation) (data : List Byte)
  /-- About to call `c.do(ctx, req, nil)`. -/
  | call (i : Nat) (op : UploadOperation) (req : Request)
  /-- In `errs <- UploadOperationError{...}`. -/
  | sendErr (e : UploadOperationError)
  /-- Body finished, the deferred `wg.Done()` still to run. -/
  | done
  /-- The goroutine has ended. -/
  | finished
  /-- The goroutine has panicked by sending on the closed channel. -/
  | panicked
  deriving DecidableEq, Repr

/-- Where the goroutine `func() { wg.Wait(); close(errs) }` stands. -/
inductive CloserPC where
  /-- Not started yet. -/
  | absent
  /-- In `wg.Wait()`. -/
  | waiting
  /-- About to run `close(errs)`. -/
  | closing
  /-- The goroutine has ended. -/
  | finished
  deriving DecidableEq, Repr

/-- A state of a run of `Upload`. -/
structure State where
  main : MainPC
  file : File
  workers : List WorkerPC
  /-- The counter of the wait group. -/
  wg : Nat
  closer : CloserPC
  /-- Whether `errs` has been closed. -/
  closed : Bool
  /-- The calls of `c.do` made so far: the index of the operation and the request. -/
  calls : List (Nat × Request)
  deriving DecidableEq, Repr

/-- The state in which `Upload` is entered. -/
def initial (file : File) : State :=
  { main := MainPC.loop 0, file := file, workers := [], wg := 0,
    closer := CloserPC.absent, closed := false, calls := [] }

/-- The moves of the goroutine running `Upload`.  One turn of the loop is one
move: `chunk`, then either the send of the error or `wg.Add(1)` and the `go`
statement.  The send in `sendErr` has no move of its own: it needs a receiver,
and the receive of this very goroutine comes after the loop.  A receive that
takes a value is a move of the sender (see `workerSteps`). -/
def mainSteps (ops : List UploadOperation) (s : State) : List State :=
  match s.main with
  | MainPC.loop i =>
    match ops[i]? with
    | some op =>
      match chunk op s.file with
      | (ChunkResult.ret data, f) =>
        [{ s with main := MainPC.loop (i + 1), file := f, wg := s.wg + 1,
                  workers := s.workers ++ [WorkerPC.start i op data] }]
      | (ChunkResult.err e, f) =>
        [{ s with main := MainPC.sendErr i { Operation := op, Err := e }, file := f }]
      | (ChunkResult.abort, f) =>
        [{ s with main := MainPC.panicked, file := f }]
    | none => [{ s with main := MainPC.recv, closer := CloserPC.waiting }]
  | MainPC.sendErr _ _ => []
  | MainPC.recv =>
    if s.closed then [{ s with main := MainPC.returned none }] else []
  | MainPC.returned _ => []
  | MainPC.panicked => []

/-- The moves of the goroutine that closes `errs`. -/
def closerSteps (s : State) : List State :=
  match s.closer with
  | CloserPC.absent => []
  | CloserPC.waiting => if s.wg = 0 then [{ s with closer := CloserPC.closing }] else []
  | CloserPC.closing => [{ s with closer := CloserPC.finished, closed := true }]
  | CloserPC.finished => []

/-- The moves of the `j`-th started `sendChunk` goroutine.  Its send completes
together with the receive of `Upload`, which returns the value at once. -/
def workerSteps (env : Env) (s : State) (j : Nat) : List State :=
  match s.workers[j]? with
  | some (WorkerPC.start i op data) =>
    match request env op data with
    | Except.error e =>
      [{ s with workers := s.workers.set j (WorkerPC.sendErr { Operation := op, Err := e }) }]
    | Except.ok req => [{ s with workers := s.workers.set j (WorkerPC.call i op req) }]
  | some (WorkerPC.call i op req) =>
    match env.transport i req with
    | some e =>
      [{ s with workers := s.workers.set j (WorkerPC.sendErr { Operation := op, Err := e }),
                calls := s.calls ++ [(i, req)] }]
    | none => [{ s with workers := s.workers.set j WorkerPC.done, calls := s.calls ++ [(i, req)] }]
  | some (WorkerPC.sendErr e) =>
    if s.closed then
      [{ s with workers := s.workers.set j WorkerPC.panicked }]
    else if s.main = MainPC.recv then
      [{ s with main := MainPC.returned (some e), workers := s.workers.set j WorkerPC.done }]
    else []
  | some WorkerPC.done => [{ s with workers := s.workers.set j WorkerPC.finished, wg := s.wg - 1 }]
  | some WorkerPC.finished => []
  | some WorkerPC.panicked => []
  | none => []

/-- Every state that one move of one goroutine can lead to. -/
def next (env : Env) (ops : List UploadOperation) (s : State) : List State :=
  mainSteps ops s ++ closerSteps s ++ (List.range s.workers.length).flatMap (workerSteps env s)

/-- One move chosen by the scheduler: the `c`-th possible one, counted
cyclically; a state without a move stays as it is. -/
def stepWith (env : Env) (ops : List UploadOperation) (s : State) (c : Nat) : State :=
  match next env ops s with
  | [] => s
  | t :: ts => (t :: ts).getD (c % (ts.length + 1)) t

/-- The state that a run reaches from `s` under the scheduler's choices. -/
def run (env : Env) (ops : List UploadOperation) (sched : List Nat) (s : State) : State :=
  sched.foldl (stepWith env ops) s

/-- Model of `UploadOperations.Upload`: the state reached under the given
choices of the scheduler; `main` tells whether and with what it has returned. -/
def Upload (env : Env) (ops : List UploadOperation) (file : File) (sched : List Nat) : State :=
  run env ops sched (initial file)

/-- The bound on the number of moves of a run of `Upload` over `n` operations. -/
def moveBound (n : Nat) : Nat := 5 * n + 4

/-- A transport and library that accept everything; URLs are stored as they
are given. -/
def okEnv : Env :=
  { newRequestCheck := fun _ _ => none, parsedURL := fun u => u, transport := fun _ _ => none }

/-- An operation as in the tests: `PATCH` to `url` with no headers. -/
def patchOp (url : String) (off len : Int) : UploadOperation :=
  { Length := some len, Method := some "PATCH", Offset := some off, RequestHeaders := [],
    URL := some url }

/-- The operations of `TestMultipartUpload`. -/
def testOperations : List UploadOperation :=
  [patchOp "server" 0 10, patchOp "server" 10 10, patchOp "server" 20 30,
   patchOp "server" 50 10, patchOp "server" 60 4]

/-- A file of `n` bytes as the tests leave it: written, cursor at the end. -/
def testFile (n : Nat) : File :=
  { content := (List.range n).map (fun k => (Fin.ofNat k : Byte)), pos := n, calls := [] }

/-- The moves that the goroutine running `Upload` over `n` operations and
every goroutine it has yet to start can still make. -/
def MainPC.moves (n : Nat) : MainPC → Nat
  | MainPC.loop i => 5 * (n - i) + 4
  | MainPC.recv => 1
  | _ => 0

/-- The moves that a `sendChunk` goroutine can still make. -/
def WorkerPC.moves : WorkerPC → Nat
  | WorkerPC.start _ _ _ => 4
  | WorkerPC.call _ _ _ => 3
  | WorkerPC.sendErr _ => 2
  | WorkerPC.done => 1
  | _ => 0

/-- The moves that the closing goroutine can still make. -/
def CloserPC.moves : CloserPC → Nat
  | CloserPC.waiting => 2
  | CloserPC.closing => 1
  | _ => 0

/-- The moves that a run over `n` operations can still make from the state. -/
def State.moves (n : Nat) (s : State) : Nat :=
  s.main.moves n + s.closer.moves + (s.workers.map WorkerPC.moves).sum

/-- Whether a `sendChunk` goroutine still counts in the wait group: 1 until
its `wg.Done()` has run. -/
def WorkerPC.pending : WorkerPC → Nat
  | WorkerPC.finished => 0
  | _ => 1

/-- What holds of the `j`-th started goroutine `w` during a run of `Upload`
over `ops` and `file`, given where `Upload` itself stands: it works on
`ops[j]` and the bytes that `chunk` got for it, and it is past its send only
if `Upload` has returned the value it sent. -/
def WorkerOK (env : Env) (ops : List UploadOperation) (file : File) (main : MainPC) (j : Nat)
    (w : WorkerPC) : Prop :=
  ∃ op data, ops[j]? = some op ∧ (chunk op file).1 = ChunkResult.ret data ∧
    match w with
    | WorkerPC.start i op1 data1 => i = j ∧ op1 = op ∧ data1 = data
    | WorkerPC.call i op1 req => i = j ∧ op1 = op ∧ request env op data = Except.ok req
    | WorkerPC.sendErr e => (sendChunk env j op data).errs = some e
    | WorkerPC.done =>
      (sendChunk env j op data).errs = none
        ∨ main = MainPC.returned (sendChunk env j op data).errs
    | WorkerPC.finished =>
      (sendChunk env j op data).errs = none
        ∨ main = MainPC.returned (sendChunk env j op data).errs
    | WorkerPC.panicked => False

/-- What holds of the goroutine running `Upload` during a run. -/
def MainOK (env : Env) (ops : List UploadOperation) (file : File) (s : State) : Prop :=
  match s.main with
  | MainPC.loop i => s.workers.length = i ∧ s.closer = CloserPC.absent
  | MainPC.sendErr i e =>
    s.workers.length = i ∧ s.closer = CloserPC.absent
      ∧ ∃ op, ops[i]? = some op ∧ e.Operation = op ∧ (chunk op file).1 = ChunkResult.err e.Err
  | MainPC.recv => s.workers.length = ops.length ∧ s.closer ≠ CloserPC.absent
  | MainPC.returned none => s.workers.length = ops.length ∧ s.closed = true
  | MainPC.returned (some e) =>
    s.workers.length = ops.length ∧ s.closer ≠ CloserPC.absent
      ∧ ∃ j op data, ops[j]? = some op ∧ (chunk op file).1 = ChunkResult.ret data
          ∧ (sendChunk env j op data).errs = some e
  | MainPC.panicked =>
    s.closer = CloserPC.absent
      ∧ ∃ (i : Nat) (op : UploadOperation), ops[i]? = some op ∧ (chunk op file).1 = ChunkResult.abort

/-- What holds of the closing goroutine and of `errs` during a run. -/
def CloserOK (s : State) : Prop :=
  match s.closer with
  | CloserPC.absent => s.closed = false
  | CloserPC.waiting => s.closed = false
  | CloserPC.closing => s.closed = false ∧ s.wg = 0
  | CloserPC.finished => s.closed = true ∧ s.wg = 0

/-- The invariant of the runs of `Upload` over `ops` and `file`. -/
structure Inv (env : Env) (ops : List UploadOperation) (file : File) (s : State) : Prop where
  content : s.file.content = file.content
  workers : ∀ j w, s.workers[j]? = some w → WorkerOK env ops file s.main j w
  wg : s.wg = (s.workers.map WorkerPC.pending).sum
  main : MainOK env ops file s
  closer : CloserOK s

/-- An operation without an offset, followed by one of the test operations. -/
def noOffsetOperations : List UploadOperation :=
  [{ patchOp "server" 0 10 with Offset := none }, patchOp "server" 10 10]

/-- An operation that starts past the end of a file of 64 bytes, followed by
one of the test operations. -/
def pastEndOperations : List UploadOperation :=
  [patchOp "server" 100 10, patchOp "server" 0 10]

/-- A transport that fails for the operation at index 1 only. -/
def secondFailsEnv : Env :=
  { newRequestCheck := fun _ _ => none,
    parsedURL := fun u => u,
    transport := fun i _ => if i = 1 then some (GoError.transport 500) else none }

/-- An operation with five headers: two lack a name or a value, and the name
`a` comes twice. -/
def mixedHeadersOp : UploadOperation :=
  { patchOp "test" 0 1 with
    RequestHeaders := [⟨some "a", some "1"⟩, ⟨none, some "x"⟩, ⟨some "b", some "2"⟩,
      ⟨some "c", none⟩, ⟨some "a", some "3"⟩] }

/-- The name and value of a header that has both. -/
def headerPair (h : UploadOperationHeader) : Option (String × String) :=
  match h.Name, h.Value with
  | some n, some v => some (n, v)
  | _, _ => none

/-- The error that `secondFailsEnv` makes of the second test operation. -/
def secondError : UploadOperationError :=
  { Operation := patchOp "server" 10 10, Err := GoError.transport 500 }

/-- A single operation as in `TestUploadOperationChunk`, for runs of `Upload`. -/
def singleOperation : List UploadOperation := [patchOp "server" 0 10]

/-- Whether a `sendChunk` goroutine is past its call of `c.do`, made or
skipped. -/
def WorkerPC.pastCall : WorkerPC → Bool
  | WorkerPC.start _ _ _ => false
  | WorkerPC.call _ _ _ => false
  | _ => true

/-- The calls of `c.do` that `sendChunk` makes for the operation at index `j`,
each with the index. -/
def operationCalls (env : Env) (ops : List UploadOperation) (file : File) (j : Nat) :
    List (Nat × Request) :=
  match ops[j]? with
  | some op =>
    match (chunk op file).1 with
    | ChunkResult.ret data => (sendChunk env j op data).calls.map (fun r => (j, r))
    | _ => []
  | none => []

/-- The calls of `c.do` that the log must hold for index `j`, given where the
`j`-th goroutine stands, if it has been started. -/
def loggedCalls (env : Env) (ops : List UploadOperation) (file : File) (j : Nat) :
    Option WorkerPC → List (Nat × Request)
  | some w => if w.pastCall then operationCalls env ops file j else []
  | none => []

/-- The log of the calls of `c.do` agrees, index by index, with where the
goroutines stand. -/
def CallsOK (env : Env) (ops : List UploadOperation) (file : File) (workers : List WorkerPC)
    (calls : List (Nat × Request)) : Prop :=
  ∀ j : Nat, calls.filter (fun p => decide (p.1 = j)) = loggedCalls env ops file j workers[j]?

/-- The test operation of 10 bytes at offset 0, with its chunk and the
request made of it, on a file of 5 bytes. -/
def shortFileRequest : Nat × Request :=
  (0, { Method := "PATCH", URL := "server", Body := [0, 1, 2, 3, 4, 0, 0, 0, 0, 0],
        Header := { entries := [] } })

/-- The calls that `chunk` issues on the file handle for an operation: none
without an offset or a length, the seek alone when the seek fails or `make`
panics (a negative length or one beyond `maxAlloc`), and otherwise the seek
followed by the read. -/
def chunkCalls (op : UploadOperation) : List FileCall :=
  match op.Offset, op.Length with
  | some off, some len =>
    if off < 0 ∨ len < 0 ∨ maxAlloc < len then [FileCall.seek off]
    else [FileCall.seek off, FileCall.read len.toNat]
  | _, _ => []

/-- The calls issued on the file handle are those of `chunk` for the first
`n` operations, one operation after the other in the order of the list, where
`n` is the index that the loop of `Upload` has reached. -/
def FileOK (ops : List UploadOperation) (file : File) (s : State) : Prop :=
  ∃ n, n ≤ ops.length ∧ s.file.calls = file.calls ++ (ops.take n).flatMap chunkCalls
    ∧ ∀ i, s.main = MainPC.loop i → i = n

/-- Two operations without a url. -/
def noUrlOperations : List UploadOperation :=
  [{ patchOp "server" 0 10 with URL := none }, { patchOp "server" 10 10 with URL := none }]

/-- The error that `sendChunk` sends for the second of `noUrlOperations`. -/
def noUrlSecondError : UploadOperationError :=
  { Operation := { patchOp "server" 10 10 with URL := none }, Err := destinationError }

/-- A file of 2^30 + 1 bytes, every byte 1, as left after writing it. -/
def gibFile : File :=
  { content := List.replicate (maxRW + 1) 1, pos := maxRW + 1, calls := [] }

/-- The operation that asks for all of `gibFile`: offset 0, length 2^30 + 1. -/
def gibOperation : UploadOperation := patchOp "test" 0 ((maxRW : Int) + 1)

/-- An operation with an empty method. -/
def emptyMethodOp : UploadOperation := { patchOp "test" 0 10 with Method := some "" }

/-- An operation with one header, its name in lower case. -/
def lowerCaseHeaderOp : UploadOperation :=
  { patchOp "test" 0 1 with RequestHeaders := [⟨some "content-type", some "text/plain"⟩] }

/-- The request that `request` makes of `mixedHeadersOp` and one byte. -/
def mixedHeadersRequest : Request :=
  { Method := "PATCH", URL := "test", Body := [7],
    Header := { entries := [("A", ["1", "3"]), ("B", ["2"])] } }

/-- When `Upload` has returned an error, some `sendChunk` goroutine is past
its send, and the error is the one that `sendChunk` sends for its operation. -/
def SenderOK (env : Env) (ops : List UploadOperation) (file : File) (s : State) : Prop :=
  ∀ e, s.main = MainPC.returned (some e) →
    ∃ (j : Nat) (w : WorkerPC) (op : UploadOperation) (data : List Byte),
      s.workers[j]? = some w ∧ (w = WorkerPC.done ∨ w = WorkerPC.finished)
        ∧ ops[j]? = some op ∧ (chunk op file).1 = ChunkResult.ret data
        ∧ (sendChunk env j op data).errs = some e

/-! ## `chunk` -/

theorem File.Seek_err (f : File) (o : Int) :
    (f.Seek o).1 = none ∨ (f.Seek o).1 = some (GoError.seekInvalid o) := by
  unfold File.Seek
  split_ifs <;> simp

theorem File.Read_err (f : File) (d : List Byte) :
    (f.Read d).2.1 = none ∨ (f.Read d).2.1 = some GoError.eof := by
  unfold File.Read
  simp only
  split_ifs <;> simp

theorem chunk_present_ne_bounds (op : UploadOperation) (f : File) (o l : Int)
    (ho : op.Offset = some o) (hl : op.Length = some l) :
    (chunk op f).1 ≠ ChunkResult.err boundsError := by
  simp only [chunk, chunkWith, ho, hl]
  have hs := File.Seek_err f o
  rcases hseek : f.Seek o with ⟨se, f1⟩
  rw [hseek] at hs
  rcases se with _ | e
  · by_cases h2 : l < 0 ∨ maxAlloc < l
    · simp [h2]
    · have hr := File.Read_err f1 (List.replicate l.toNat 0)
      rcases hread : f1.Read (List.replicate l.toNat 0) with ⟨d, re, f2⟩
      rw [hread] at hr
      rcases re with _ | e
      · simp [h2, hread]
      · rcases hr with hr | hr
        · simp at hr
        · simp only [Option.some.injEq] at hr
          simp [h2, hread, hr, boundsError]
  · rcases hs with hs | hs
    · simp at hs
    · simp only [Option.some.injEq] at hs
      simp [hs, boundsError]

/-- What `chunk` returns when the seek and the allocation succeed and the file
has a byte at the offset: the bytes that the one call of `Read` copies, at
most `maxRW` of them, followed by the zero bytes that `make` put there. -/
theorem chunkWith_read (cap : Int) (op : UploadOperation) (f : File) (o l : Int)
    (ho : op.Offset = some o) (hl : op.Length = some l) (ho0 : 0 ≤ o) (hl0 : 0 < l)
    (hcap : l ≤ cap) (havail : o.toNat < f.content.length) :
    (chunkWith cap op f).1
      = ChunkResult.ret ((f.content.drop o.toNat).take (min l.toNat maxRW)
          ++ List.replicate
              (l.toNat - ((f.content.drop o.toNat).take (min l.toNat maxRW)).length) 0) := by
  have h1 : ¬ o < 0 := by omega
  have h2 : ¬ (l < 0 ∨ cap < l) := by omega
  have h3 : ¬ l ≤ 0 := by omega
  have hrw : 0 < maxRW := by decide
  have hgot : ¬ ((f.content.drop o.toNat).take (min l.toNat maxRW)).length = 0 := by
    rw [List.length_take, List.length_drop]
    omega
  simp only [chunkWith, ho, hl, File.Seek, h1, h2, if_false, File.Read, List.length_replicate]
  have hz : ¬ l.toNat = 0 := by omega
  simp only [hz, if_false, hgot, List.drop_replicate]

/-- With offset `o ≥ 0` and length `0 ≤ l ≤ maxRW` present and a file of at
least `o + l` bytes, `chunk` succeeds and its reader holds exactly the `l`
bytes of the file at positions `[o, o + l)`, in order. -/
theorem chunk_in_bounds_of_le_maxRW (op : UploadOperation) (f : File) (o l : Int)
    (ho : op.Offset = some o) (hl : op.Length = some l) (ho0 : 0 ≤ o) (hl0 : 0 ≤ l)
    (hrw : l ≤ (maxRW : Int)) (hsize : o + l ≤ (f.content.length : Int)) :
    (chunk op f).1 = ChunkResult.ret ((f.content.drop o.toNat).take l.toNat)
      ∧ ((f.content.drop o.toNat).take l.toNat).length = l.toNat
      ∧ ∀ k : Nat, k < l.toNat →
          ((f.content.drop o.toNat).take l.toNat)[k]? = f.content[o.toNat + k]? := by
  have hlen : ((f.content.drop o.toNat).take l.toNat).length = l.toNat := by
    rw [List.length_take, List.length_drop]
    omega
  have hcap : l ≤ maxAlloc := by
    have : (maxRW : Int) ≤ maxAlloc := by decide
    omega
  refine ⟨?_, hlen, ?_⟩
  · by_cases hz : l = 0
    · subst hz
      have h1 : ¬ o < 0 := by omega
      have h2 : ¬ maxAlloc < 0 := by decide
      simp [chunk, chunkWith, ho, hl, File.Seek, File.Read, h1, h2]
    · have hmin : min l.toNat maxRW = l.toNat := by
        apply Nat.min_eq_left
        omega
      rw [chunk, chunkWith_read maxAlloc op f o l ho hl ho0 (by omega) hcap (by omega), hmin, hlen]
      simp
  · intro k hk
    rw [List.getElem?_take_of_lt hk, List.getElem?_drop]

theorem gibFile_read :
    (gibFile.content.drop (0 : Int).toNat).take (min ((maxRW : Int) + 1).toNat maxRW)
      = List.replicate maxRW 1 := by
  have hto : ((maxRW : Int) + 1).toNat = maxRW + 1 := by omega
  have hmin : min (maxRW + 1) maxRW = maxRW := by omega
  have hmin2 : min maxRW (maxRW + 1) = maxRW := by omega
  have hc : gibFile.content = List.replicate (maxRW + 1) 1 := rfl
  rw [hto, hmin, hc, Int.toNat_zero, List.drop_zero, List.take_replicate, hmin2]

theorem gibFile_padding (got : List Byte) (h : got = List.replicate maxRW 1) :
    ChunkResult.ret (got ++ List.replicate (((maxRW : Int) + 1).toNat - got.length) 0)
      = ChunkResult.ret (List.replicate maxRW 1 ++ [0]) := by
  have hto : ((maxRW : Int) + 1).toNat = maxRW + 1 := by omega
  have h1 : maxRW + 1 - maxRW = 1 := by omega
  rw [h, hto, List.length_replicate, h1]
  rfl

/-- C1: on the file of 2^30 + 1 bytes, all 1, the operation with offset 0 and
length 2^30 + 1 gets no error from `chunk` but a reader whose last byte is 0,
where the file has 1: the one call of `Read` copies 2^30 bytes only, and its
count is not looked at. -/
theorem chunk_long_read :
    (chunk gibOperation gibFile).1 = ChunkResult.ret (List.replicate maxRW 1 ++ [0])
      ∧ (gibFile.content.drop 0).take (maxRW + 1) = List.replicate maxRW 1 ++ [1]
      ∧ gibFile.content.length = maxRW + 1 := by
  have hcap : (maxRW : Int) + 1 ≤ maxAlloc := by decide
  refine ⟨?_, ?_, ?_⟩
  · rw [chunk, chunkWith_read maxAlloc gibOperation gibFile 0 ((maxRW : Int) + 1) rfl rfl
      (le_refl 0) (by omega) hcap (by simp [gibFile])]
    exact gibFile_padding _ gibFile_read
  · simp only [gibFile, List.drop_zero, List.take_replicate, Nat.min_self]
    exact List.replicate_succ' maxRW 1
  · simp [gibFile]

/-- C2: without an offset or without a length, `chunk` fails with the bounds
error and leaves the handle as it was: no call is issued on it and the cursor
stays.  The result differs from that of the operation with 0 put in for what is
missing. -/
theorem chunk_missing_bounds (op : UploadOperation) (f : File)
    (h : op.Offset = none ∨ op.Length = none) :
    chunk op f
        = (ChunkResult.err (GoError.errorsNew "could not establish bounds of upload operation"), f)
      ∧ (chunk op f).2.calls = f.calls ∧ (chunk op f).2.pos = f.pos
      ∧ (chunk { op with Offset := some (op.Offset.getD 0), Length := some (op.Length.getD 0) } f).1
          ≠ (chunk op f).1 := by
  have hc : chunk op f = (ChunkResult.err boundsError, f) := by
    rcases h with h | h
    · simp [chunk, chunkWith, h]
    · cases ho : op.Offset <;> simp [chunk, chunkWith, h, ho]
  refine ⟨hc, by rw [hc], by rw [hc], ?_⟩
  rw [hc]
  exact chunk_present_ne_bounds _ f _ _ rfl rfl

theorem chunk_missing_bounds_witness :
    chunk { patchOp "test" 0 10 with Offset := none } (testFile 20)
        = (ChunkResult.err (GoError.errorsNew "could not establish bounds of upload operation"),
            testFile 20)
      ∧ (chunk { patchOp "test" 0 10 with Offset := none } (testFile 20)).2.calls
          = (testFile 20).calls
      ∧ (chunk { patchOp "test" 0 10 with Offset := none } (testFile 20)).2.pos = (testFile 20).pos
      ∧ (chunk { ({ patchOp "test" 0 10 with Offset := none } : UploadOperation) with
            Offset := some ((({ patchOp "test" 0 10 with Offset := none } : UploadOperation).Offset).getD 0),
            Length := some ((({ patchOp "test" 0 10 with Offset := none } : UploadOperation).Length).getD 0) }
          (testFile 20)).1
          ≠ (chunk { patchOp "test" 0 10 with Offset := none } (testFile 20)).1 :=
  chunk_missing_bounds { patchOp "test" 0 10 with Offset := none } (testFile 20) (Or.inl rfl)

/-- C3: on a file of 5 bytes, the operation with offset 0 and length 10 gets
no error from `chunk` but a reader of 10 bytes: the 5 bytes of the file and 5
zero bytes. -/
theorem chunk_short_read :
    (chunk (patchOp "test" 0 10) (testFile 5)).1
      = ChunkResult.ret [0, 1, 2, 3, 4, 0, 0, 0, 0, 0] := by
  decide

/-! ## `request` and `sendChunk` -/

/-- C4: without a method or without a url, `request` fails with the
destination error and returns no request; `sendChunk` sends that error for the
operation on `errs` and hands nothing to the transport, and so does its
goroutine in a run of `Upload`. -/
theorem request_missing_destination (env : Env) (op : UploadOperation) (data : List Byte)
    (i : Nat) (h : op.Method = none ∨ op.URL = none) :
    request env op data
        = Except.error (GoError.errorsNew "could not establish destination of upload operation")
      ∧ sendChunk env i op data
        = { errs := some { Operation := op,
                           Err := GoError.errorsNew
                             "could not establish destination of upload operation" },
            calls := [] }
      ∧ ∀ (s : State) (j : Nat), s.workers[j]? = some (WorkerPC.start i op data) →
          workerSteps env s j
            = [{ s with workers := s.workers.set j (WorkerPC.sendErr
                  { Operation := op,
                    Err := GoError.errorsNew
                      "could not establish destination of upload operation" }) }] := by
  have hr : request env op data = Except.error destinationError := by
    rcases h with h | h
    · simp [request, h]
    · cases hm : op.Method <;> simp [request, h, hm]
  refine ⟨hr, ?_, ?_⟩
  · simp [sendChunk, hr, destinationError]
  · intro s j hj
    simp [workerSteps, hj, hr, destinationError]

theorem request_missing_destination_witness :
    request okEnv { patchOp "test" 0 10 with URL := none } [1, 2]
        = Except.error (GoError.errorsNew "could not establish destination of upload operation")
      ∧ sendChunk okEnv 0 { patchOp "test" 0 10 with URL := none } [1, 2]
        = { errs := some { Operation := { patchOp "test" 0 10 with URL := none },
                           Err := GoError.errorsNew
                             "could not establish destination of upload operation" },
            calls := [] }
      ∧ ∀ (s : State) (j : Nat),
          s.workers[j]? = some (WorkerPC.start 0 { patchOp "test" 0 10 with URL := none } [1, 2]) →
          workerSteps okEnv s j
            = [{ s with workers := s.workers.set j (WorkerPC.sendErr
                  { Operation := { patchOp "test" 0 10 with URL := none },
                    Err := GoError.errorsNew
                      "could not establish destination of upload operation" }) }] :=
  request_missing_destination okEnv { patchOp "test" 0 10 with URL := none } [1, 2] 0 (Or.inr rfl)

/-- C5, as the claim has it, fails: the operation with the empty method, which
the library accepts, gets a request from `request` whose method is `GET`, not
the empty method of the operation. -/
theorem request_empty_method_is_GET :
    emptyMethodOp.Method = some "" ∧ emptyMethodOp.URL = some "test"
      ∧ okEnv.newRequestCheck "" "test" = none
      ∧ (∃ r, request okEnv emptyMethodOp [1, 2, 3] = Except.ok r ∧ r.Method = "GET")
      ∧ ¬ ∃ r, request okEnv emptyMethodOp [1, 2, 3] = Except.ok r ∧ r.Method = "" := by
  refine ⟨rfl, rfl, rfl, ⟨_, rfl, rfl⟩, ?_⟩
  rintro ⟨r, hr, hm⟩
  have h : request okEnv emptyMethodOp [1, 2, 3]
      = Except.ok { Method := "GET", URL := "test", Body := [1, 2, 3],
                    Header := { entries := [] } } := rfl
  rw [h] at hr
  simp only [Except.ok.injEq] at hr
  rw [← hr] at hm
  revert hm
  decide

/-- C5, amended: with method `m` and url `u` present and accepted by the HTTP
library, `request` succeeds for every body; the request has that body, the
URL that the library parses from `u`, and the method `m`, but `GET` when `m`
is empty. -/
theorem request_present (env : Env) (op : UploadOperation) (m u : String) (data : List Byte)
    (hm : op.Method = some m) (hu : op.URL = some u) (hacc : env.newRequestCheck m u = none) :
    ∃ r, request env op data = Except.ok r
      ∧ r.Method = (if m = "" then "GET" else m) ∧ (m ≠ "" → r.Method = m)
      ∧ r.URL = env.parsedURL u ∧ r.Body = data := by
  refine ⟨{ Method := if m = "" then "GET" else m, URL := env.parsedURL u, Body := data,
             Header := addHeaders op.RequestHeaders { entries := [] } },
    by simp only [request, hm, hu, hacc], rfl, ?_, rfl, rfl⟩
  intro hne
  simp [hne]

theorem request_present_witness :
    (∃ r, request okEnv (patchOp "test" 0 10) [1, 2, 3] = Except.ok r
        ∧ r.Method = "PATCH" ∧ r.URL = okEnv.parsedURL "test" ∧ r.Body = [1, 2, 3])
      ∧ ∃ r, request okEnv emptyMethodOp [1, 2, 3] = Except.ok r
          ∧ r.Method = "GET" ∧ r.URL = okEnv.parsedURL "test" ∧ r.Body = [1, 2, 3] :=
  ⟨(request_present okEnv (patchOp "test" 0 10) "PATCH" "test" [1, 2, 3] rfl rfl rfl).imp
      (fun _ h => ⟨h.1, h.2.2.1 (by decide), h.2.2.2.1, h.2.2.2.2⟩),
    (request_present okEnv emptyMethodOp "" "test" [1, 2, 3] rfl rfl rfl).imp
      (fun _ h => ⟨h.1, h.2.1.trans (if_pos rfl), h.2.2.2.1, h.2.2.2.2⟩)⟩

theorem lookupValues_appendValue (es : List (String × List String)) (k v k1 : String) :
    lookupValues (appendValue es k v) k1
      = if k = k1 then lookupValues es k1 ++ [v] else lookupValues es k1 := by
  induction es with
  | nil =>
    by_cases h : k = k1 <;> simp [appendValue, lookupValues, h]
  | cons e rest ih =>
    rcases e with ⟨k0, vs⟩
    by_cases h0 : k0 = k
    · subst h0
      by_cases h : k0 = k1 <;> simp [appendValue, lookupValues, h]
    · by_cases h : k = k1
      · subst h
        simp [appendValue, lookupValues, h0, ih]
      · by_cases h1 : k0 = k1
        · subst h1
          simp [appendValue, lookupValues, h0, h]
        · simp [appendValue, lookupValues, h0, h, h1, ih]

/-- What `Header.Add` does to the map: the value goes to the end of the entry
of the canonical name, and every other entry stays. -/
theorem entry_Add (h : HTTPHeader) (key value k : String) :
    (h.Add key value).entry k
      = if CanonicalMIMEHeaderKey key = k then h.entry k ++ [value] else h.entry k := by
  simp only [HTTPHeader.Add, HTTPHeader.entry, lookupValues_appendValue]

theorem entry_addHeaders (hs : List UploadOperationHeader) (acc : HTTPHeader) (k : String) :
    (addHeaders hs acc).entry k
      = acc.entry k
          ++ ((hs.filterMap headerPair).filter
                (fun p => decide (CanonicalMIMEHeaderKey p.1 = k))).map Prod.snd := by
  induction hs generalizing acc with
  | nil => simp [addHeaders]
  | cons hd rest ih =>
    rcases hd with ⟨n, v⟩
    cases n with
    | none => simp [addHeaders, headerPair, ih]
    | some n =>
      cases v with
      | none => simp [addHeaders, headerPair, ih]
      | some v =>
        simp only [addHeaders, ih, entry_Add, headerPair, List.filterMap_cons]
        by_cases hk : CanonicalMIMEHeaderKey n = k <;> simp [hk, List.filter_cons]

/-- C6, as the claim has it, fails: for the operation with the one header
`content-type: text/plain`, the request holds nothing under the name
`content-type`; the value is under `Content-Type`. -/
theorem request_header_name_rewritten :
    ∃ r, request okEnv lowerCaseHeaderOp [7] = Except.ok r
      ∧ r.Header.entry "content-type" = []
      ∧ r.Header.entry "Content-Type" = ["text/plain"]
      ∧ r.Header.entries = [("Content-Type", ["text/plain"])] :=
  ⟨_, rfl, by decide, by decide, by decide⟩

/-- C6, amended: when `request` succeeds, the header of the request holds,
under every name `k`, the values of the entries of `RequestHeaders` that have
both a name and a value and whose name has the canonical form `k`, in the
order of `RequestHeaders` and with repetitions, and nothing else: entries
without a name or without a value add nothing, and the names themselves are in
canonical form. -/
theorem request_headers (env : Env) (op : UploadOperation) (data : List Byte) (r : Request)
    (h : request env op data = Except.ok r) (k : String) :
    r.Header.entry k
      = ((op.RequestHeaders.filterMap headerPair).filter
            (fun p => decide (CanonicalMIMEHeaderKey p.1 = k))).map Prod.snd := by
  unfold request at h
  split at h
  · split at h
    · simp at h
    · simp only [Except.ok.injEq] at h
      rw [← h]
      simp only [entry_addHeaders]
      simp [HTTPHeader.entry, lookupValues]
  · simp at h

theorem request_headers_witness :
    mixedHeadersRequest.Header.entry "A"
      = ((mixedHeadersOp.RequestHeaders.filterMap headerPair).filter
            (fun p => decide (CanonicalMIMEHeaderKey p.1 = "A"))).map Prod.snd :=
  request_headers okEnv mixedHeadersOp [7] mixedHeadersRequest rfl "A"

/-! ## Runs of `Upload`: every run comes to rest -/

theorem sum_map_set (f : WorkerPC → Nat) (l : List WorkerPC) (j : Nat) (w0 w : WorkerPC)
    (h : l[j]? = some w0) :
    ((l.set j w).map f).sum + f w0 = (l.map f).sum + f w := by
  induction l generalizing j with
  | nil => simp at h
  | cons a rest ih =>
    cases j with
    | zero =>
      simp only [List.getElem?_cons_zero, Option.some.injEq] at h
      subst h
      simp only [List.set_cons_zero, List.map_cons, List.sum_cons]
      omega
    | succ k =>
      simp only [List.getElem?_cons_succ] at h
      have := ih k h
      simp only [List.set_cons_succ, List.map_cons, List.sum_cons]
      omega

theorem mainSteps_moves (ops : List UploadOperation) (s t : State) (h : t ∈ mainSteps ops s) :
    t.moves ops.length < s.moves ops.length := by
  unfold mainSteps at h
  split at h
  · rename_i i hmain
    split at h
    · rename_i op hop
      have hi : i < ops.length := by
        rcases List.getElem?_eq_some_iff.mp hop with ⟨hlt, _⟩
        exact hlt
      split at h <;> simp only [List.mem_singleton] at h <;> subst h <;>
        (simp [State.moves, MainPC.moves, WorkerPC.moves, hmain]; try omega)
    · simp only [List.mem_singleton] at h
      subst h
      rename_i hop
      have hi : ops.length ≤ i := by
        rcases Nat.lt_or_ge i ops.length with hlt | hge
        · simp [List.getElem?_eq_getElem hlt] at hop
        · exact hge
      have : ops.length - i = 0 := by omega
      cases hc : s.closer <;> simp [State.moves, MainPC.moves, CloserPC.moves, hmain, this, hc]
  · simp at h
  · rename_i hmain
    split at h
    · simp only [List.mem_singleton] at h
      subst h
      simp [State.moves, MainPC.moves, hmain]
    · simp at h
  · simp at h
  · simp at h

theorem closerSteps_moves (n : Nat) (s t : State) (h : t ∈ closerSteps s) :
    t.moves n < s.moves n := by
  unfold closerSteps at h
  split at h
  · simp at h
  · rename_i hc
    split at h
    · simp only [List.mem_singleton] at h
      subst h
      simp [State.moves, CloserPC.moves, hc]
    · simp at h
  · rename_i hc
    simp only [List.mem_singleton] at h
    subst h
    simp [State.moves, CloserPC.moves, hc]
  · simp at h

theorem workerSteps_moves (env : Env) (n : Nat) (s t : State) (j : Nat)
    (h : t ∈ workerSteps env s j) : t.moves n < s.moves n := by
  unfold workerSteps at h
  split at h
  · rename_i i op data hw
    have key := fun w => sum_map_set WorkerPC.moves s.workers j _ w hw
    split at h <;> simp only [List.mem_singleton] at h <;> subst h
    · have := key (WorkerPC.sendErr { Operation := op, Err := ‹GoError› })
      simp only [State.moves, WorkerPC.moves] at this ⊢
      omega
    · have := key (WorkerPC.call i op ‹Request›)
      simp only [State.moves, WorkerPC.moves] at this ⊢
      omega
  · rename_i i op req hw
    have key := fun w => sum_map_set WorkerPC.moves s.workers j _ w hw
    split at h <;> simp only [List.mem_singleton] at h <;> subst h
    · have := key (WorkerPC.sendErr { Operation := op, Err := ‹GoError› })
      simp only [State.moves, WorkerPC.moves] at this ⊢
      omega
    · have := key WorkerPC.done
      simp only [State.moves, WorkerPC.moves] at this ⊢
      omega
  · rename_i e hw
    have key := fun w => sum_map_set WorkerPC.moves s.workers j _ w hw
    split at h
    · simp only [List.mem_singleton] at h
      subst h
      have := key WorkerPC.panicked
      simp only [State.moves, WorkerPC.moves] at this ⊢
      omega
    · split at h
      · rename_i hm
        simp only [List.mem_singleton] at h
        subst h
        have := key WorkerPC.done
        simp only [State.moves, WorkerPC.moves, MainPC.moves, hm] at this ⊢
        omega
      · simp at h
  · rename_i hw
    have key := fun w => sum_map_set WorkerPC.moves s.workers j _ w hw
    simp only [List.mem_singleton] at h
    subst h
    have := key WorkerPC.finished
    simp only [State.moves, WorkerPC.moves] at this ⊢
    omega
  · simp at h
  · simp at h
  · simp at h

theorem mem_next (env : Env) (ops : List UploadOperation) (s t : State) :
    t ∈ next env ops s ↔
      t ∈ mainSteps ops s ∨ t ∈ closerSteps s
        ∨ ∃ j, j < s.workers.length ∧ t ∈ workerSteps env s j := by
  simp [next, List.mem_flatMap, or_assoc]

theorem next_moves (env : Env) (ops : List UploadOperation) (s t : State)
    (h : t ∈ next env ops s) : t.moves ops.length < s.moves ops.length := by
  rcases (mem_next env ops s t).mp h with h | h | ⟨j, _, h⟩
  · exact mainSteps_moves ops s t h
  · exact closerSteps_moves _ s t h
  · exact workerSteps_moves env _ s t j h

theorem stepWith_mem (env : Env) (ops : List UploadOperation) (s : State) (c : Nat)
    (h : next env ops s ≠ []) : stepWith env ops s c ∈ next env ops s := by
  unfold stepWith
  cases hn : next env ops s with
  | nil => exact absurd hn h
  | cons t ts =>
    simp only
    have hlt : c % (ts.length + 1) < (t :: ts).length := by
      simp only [List.length_cons]
      exact Nat.mod_lt _ (Nat.succ_pos _)
    rw [List.getD_eq_getElem _ _ hlt]
    exact List.getElem_mem _

theorem stepWith_rest (env : Env) (ops : List UploadOperation) (s : State) (c : Nat)
    (h : next env ops s = []) : stepWith env ops s c = s := by
  simp [stepWith, h]

theorem run_rest (env : Env) (ops : List UploadOperation) (sched : List Nat) (s : State)
    (h : next env ops s = []) : run env ops sched s = s := by
  induction sched with
  | nil => rfl
  | cons c rest ih =>
    simp only [run, List.foldl_cons] at ih ⊢
    rw [stepWith_rest env ops s c h]
    exact ih

/-- Every run comes to rest: after as many moves as the state allows, no
goroutine can move. -/
theorem run_comes_to_rest (env : Env) (ops : List UploadOperation) (sched : List Nat)
    (s : State) (h : s.moves ops.length ≤ sched.length) :
    next env ops (run env ops sched s) = [] := by
  induction sched generalizing s with
  | nil =>
    cases hn : next env ops s with
    | nil => simpa [run] using hn
    | cons t ts =>
      have := next_moves env ops s t (by rw [hn]; exact List.mem_cons_self _ _)
      simp only [List.length_nil] at h
      omega
  | cons c rest ih =>
    by_cases hn : next env ops s = []
    · rw [run_rest env ops _ s hn]
      exact hn
    · have hm := next_moves env ops s _ (stepWith_mem env ops s c hn)
      simp only [run, List.foldl_cons]
      apply ih
      simp only [List.length_cons] at h
      omega

/-! ## Runs of `Upload`: the invariant -/

theorem chunk_content (op : UploadOperation) (f : File) :
    (chunk op f).2.content = f.content := by
  unfold chunk chunkWith
  split
  · rename_i off len _ _
    by_cases h1 : off < 0
    · simp [File.Seek, h1]
    · by_cases h2 : len < 0 ∨ maxAlloc < len
      · simp [File.Seek, h1, h2]
      · simp only [File.Seek, h1, h2, if_false, File.Read]
        split_ifs <;> rfl
  · rfl

theorem chunk_congr (op : UploadOperation) (f g : File) (h : f.content = g.content) :
    (chunk op f).1 = (chunk op g).1 := by
  unfold chunk chunkWith
  split
  · rename_i off len _ _
    by_cases h1 : off < 0
    · simp [File.Seek, h1]
    · by_cases h2 : len < 0 ∨ maxAlloc < len
      · simp [File.Seek, h1, h2]
      · simp only [File.Seek, h1, h2, if_false, File.Read, h]
        split_ifs <;> rfl
  · rfl

theorem WorkerOK.mono {env : Env} {ops : List UploadOperation} {file : File} {m1 m2 : MainPC}
    {j : Nat} {w : WorkerPC} (h : WorkerOK env ops file m1 j w)
    (hm : ∀ r, m1 = MainPC.returned r → m2 = MainPC.returned r) :
    WorkerOK env ops file m2 j w := by
  obtain ⟨op, data, h1, h2, h3⟩ := h
  refine ⟨op, data, h1, h2, ?_⟩
  cases w with
  | start i op1 d1 => exact h3
  | call i op1 req => exact h3
  | sendErr e => exact h3
  | done =>
    rcases h3 with h3 | h3
    · exact Or.inl h3
    · exact Or.inr (hm _ h3)
  | finished =>
    rcases h3 with h3 | h3
    · exact Or.inl h3
    · exact Or.inr (hm _ h3)
  | panicked => exact h3

theorem Inv.len {env : Env} {ops : List UploadOperation} {file : File} {s : State}
    (h : Inv env ops file s) : s.workers.length ≤ ops.length := by
  by_contra hlt
  have hj : ops.length < s.workers.length := by omega
  obtain ⟨op, _, hop, _⟩ := h.workers ops.length _ (List.getElem?_eq_getElem hj)
  simp at hop

theorem inv_initial (env : Env) (ops : List UploadOperation) (file : File) :
    Inv env ops file (initial file) := by
  refine ⟨rfl, ?_, rfl, ?_, ?_⟩
  · intro j w h
    simp [initial] at h
  · simp [MainOK, initial]
  · simp [CloserOK, initial]

theorem inv_mainSteps (env : Env) (ops : List UploadOperation) (file : File) (s t : State)
    (hinv : Inv env ops file s) (h : t ∈ mainSteps ops s) : Inv env ops file t := by
  have hM := hinv.main
  have hC := hinv.closer
  unfold mainSteps at h
  split at h
  · rename_i i hmain
    simp only [MainOK, hmain] at hM
    obtain ⟨hlen, hcl⟩ := hM
    simp only [CloserOK, hcl] at hC
    have hold : ∀ (m : MainPC) j w, s.workers[j]? = some w → WorkerOK env ops file m j w := by
      intro m j w hw
      refine (hinv.workers j w hw).mono ?_
      intro r hr
      rw [hmain] at hr
      exact absurd hr (by simp)
    split at h
    · rename_i op hop
      split at h <;> rename_i hch <;> simp only [List.mem_singleton] at h <;> subst h
      · rename_i data f
        have hf : f = (chunk op s.file).2 := by rw [hch]
        have hd : (chunk op file).1 = ChunkResult.ret data := by
          rw [← chunk_congr op s.file file hinv.content, hch]
        refine ⟨?_, ?_, ?_, ?_, ?_⟩
        · simp only [hf, chunk_content, hinv.content]
        · intro j w hw
          simp only at hw
          rcases Nat.lt_trichotomy j s.workers.length with hj | hj | hj
          · rw [List.getElem?_append_left hj] at hw
            exact hold _ j w hw
          · subst hj
            rw [List.getElem?_concat_length] at hw
            simp only [Option.some.injEq] at hw
            subst hw
            exact ⟨op, data, by rw [hlen]; exact hop, hd, hlen.symm, rfl, rfl⟩
          · rw [List.getElem?_eq_none (by simp; omega)] at hw
            simp at hw
        · simp [hinv.wg, WorkerPC.pending]
        · simp [MainOK, hlen, hcl]
        · simp [CloserOK, hcl, hC]
      · rename_i e f
        have hf : f = (chunk op s.file).2 := by rw [hch]
        have hd : (chunk op file).1 = ChunkResult.err e := by
          rw [← chunk_congr op s.file file hinv.content, hch]
        refine ⟨?_, ?_, hinv.wg, ?_, ?_⟩
        · simp only [hf, chunk_content, hinv.content]
        · intro j w hw
          exact hold _ j w hw
        · simp [MainOK, hlen, hcl, hop, hd]
        · simp [CloserOK, hcl, hC]
      · rename_i f
        have hf : f = (chunk op s.file).2 := by rw [hch]
        have hd : (chunk op file).1 = ChunkResult.abort := by
          rw [← chunk_congr op s.file file hinv.content, hch]
        refine ⟨?_, ?_, hinv.wg, ?_, ?_⟩
        · simp only [hf, chunk_content, hinv.content]
        · intro j w hw
          exact hold _ j w hw
        · simp only [MainOK]
          exact ⟨hcl, i, op, hop, hd⟩
        · simp [CloserOK, hcl, hC]
    · rename_i hop
      simp only [List.mem_singleton] at h
      subst h
      have hi : ops.length ≤ i := List.getElem?_eq_none_iff.mp hop
      have hle := hinv.len
      refine ⟨hinv.content, ?_, hinv.wg, ?_, ?_⟩
      · intro j w hw
        exact hold _ j w hw
      · simp only [MainOK]
        constructor
        · omega
        · simp
      · simp [CloserOK, hC]
  · simp at h
  · rename_i hmain
    simp only [MainOK, hmain] at hM
    split at h
    · rename_i hclosed
      simp only [List.mem_singleton] at h
      subst h
      refine ⟨hinv.content, ?_, hinv.wg, ?_, hC⟩
      · intro j w hw
        refine (hinv.workers j w hw).mono ?_
        intro r hr
        rw [hmain] at hr
        exact absurd hr (by simp)
      · simp [MainOK, hM.1, hclosed]
    · simp at h
  · simp at h
  · simp at h

theorem inv_closerSteps (env : Env) (ops : List UploadOperation) (file : File) (s t : State)
    (hinv : Inv env ops file s) (h : t ∈ closerSteps s) : Inv env ops file t := by
  have hM := hinv.main
  have hC := hinv.closer
  unfold closerSteps at h
  split at h
  · simp at h
  · rename_i hc
    simp only [CloserOK, hc] at hC
    split at h
    · rename_i hwg
      simp only [List.mem_singleton] at h
      subst h
      refine ⟨hinv.content, hinv.workers, hinv.wg, ?_, ?_⟩
      · unfold MainOK at hM ⊢
        simp only
        split at hM <;> simp_all
      · simp [CloserOK, hC, hwg]
    · simp at h
  · rename_i hc
    simp only [CloserOK, hc] at hC
    simp only [List.mem_singleton] at h
    subst h
    refine ⟨hinv.content, hinv.workers, hinv.wg, ?_, ?_⟩
    · unfold MainOK at hM ⊢
      simp only
      split at hM <;> simp_all
    · simp [CloserOK, hC]
  · simp at h

theorem pending_eq_zero (l : List WorkerPC) (j : Nat) (w : WorkerPC) (h : l[j]? = some w)
    (hz : (l.map WorkerPC.pending).sum = 0) : w = WorkerPC.finished := by
  have := sum_map_set WorkerPC.pending l j w WorkerPC.finished h
  have hf : WorkerPC.finished.pending = 0 := rfl
  have hp : w.pending = 0 := by
    rw [hz, hf] at this
    omega
  cases w <;> simp_all [WorkerPC.pending]

/-- A move of a `sendChunk` goroutine that leaves `Upload` where it is keeps
the invariant, given what holds of the goroutine afterwards. -/
theorem inv_set (env : Env) (ops : List UploadOperation) (file : File) (s : State) (j : Nat)
    (w0 w1 : WorkerPC) (calls : List (Nat × Request)) (hinv : Inv env ops file s)
    (hw : s.workers[j]? = some w0) (hp0 : w0.pending = 1) (hp1 : w1.pending = 1)
    (hok : WorkerOK env ops file s.main j w1) :
    Inv env ops file { s with workers := s.workers.set j w1, calls := calls } := by
  refine ⟨hinv.content, ?_, ?_, ?_, ?_⟩
  · intro k w hk
    simp only [List.getElem?_set] at hk
    split at hk
    · rename_i hjk
      subst hjk
      split at hk
      · simp only [Option.some.injEq] at hk
        subst hk
        exact hok
      · simp at hk
    · exact hinv.workers k w hk
  · have := sum_map_set WorkerPC.pending s.workers j w0 w1 hw
    simp only [hinv.wg]
    omega
  · have hM := hinv.main
    unfold MainOK at hM ⊢
    simp only [List.length_set]
    exact hM
  · exact hinv.closer

theorem inv_workerSteps (env : Env) (ops : List UploadOperation) (file : File) (s t : State)
    (j : Nat) (hinv : Inv env ops file s) (h : t ∈ workerSteps env s j) :
    Inv env ops file t := by
  unfold workerSteps at h
  split at h
  · rename_i i op data hw
    obtain ⟨op0, data0, hop, hch, hi, ho, hd⟩ := hinv.workers j _ hw
    subst hi ho hd
    split at h <;> rename_i hreq <;> simp only [List.mem_singleton] at h <;> subst h
    · refine inv_set env ops file s i _ _ s.calls hinv hw rfl rfl ?_
      exact ⟨op, data, hop, hch, by simp [sendChunk, hreq]⟩
    · refine inv_set env ops file s i _ _ s.calls hinv hw rfl rfl ?_
      exact ⟨op, data, hop, hch, rfl, rfl, hreq⟩
  · rename_i i op req hw
    obtain ⟨op0, data0, hop, hch, hi, ho, hreq⟩ := hinv.workers j _ hw
    subst hi ho
    split at h <;> rename_i htr <;> simp only [List.mem_singleton] at h <;> subst h
    · refine inv_set env ops file s i _ _ _ hinv hw rfl rfl ?_
      exact ⟨op, data0, hop, hch, by simp [sendChunk, hreq, htr]⟩
    · refine inv_set env ops file s i _ _ _ hinv hw rfl rfl ?_
      exact ⟨op, data0, hop, hch, Or.inl (by simp [sendChunk, hreq, htr])⟩
  · rename_i e hw
    obtain ⟨op0, data0, hop, hch, herr⟩ := hinv.workers j _ hw
    have hC := hinv.closer
    split at h
    · rename_i hclosed
      exfalso
      unfold CloserOK at hC
      split at hC <;> simp_all
      have := pending_eq_zero s.workers j _ hw (by rw [← hinv.wg]; exact hC.2)
      simp at this
    · split at h
      · rename_i hclosed hmain
        simp only [List.mem_singleton] at h
        subst h
        have hM := hinv.main
        simp only [MainOK, hmain] at hM
        refine ⟨hinv.content, ?_, ?_, ?_, hC⟩
        · intro k w hk
          simp only [List.getElem?_set] at hk
          split at hk
          · rename_i hjk
            subst hjk
            split at hk
            · simp only [Option.some.injEq] at hk
              subst hk
              exact ⟨op0, data0, hop, hch, Or.inr (by simp [herr])⟩
            · simp at hk
          · refine (hinv.workers k w hk).mono ?_
            intro r hr
            rw [hmain] at hr
            exact absurd hr (by simp)
        · have := sum_map_set WorkerPC.pending s.workers j _ WorkerPC.done hw
          simp only [WorkerPC.pending] at this
          simp only [hinv.wg]
          omega
        · simp only [MainOK, List.length_set]
          exact ⟨hM.1, hM.2, j, op0, data0, hop, hch, herr⟩
      · simp at h
  · rename_i hw
    simp only [List.mem_singleton] at h
    subst h
    obtain ⟨op0, data0, hop, hch, hdone⟩ := hinv.workers j _ hw
    have hsum := sum_map_set WorkerPC.pending s.workers j _ WorkerPC.finished hw
    simp only [WorkerPC.pending] at hsum
    refine ⟨hinv.content, ?_, ?_, ?_, ?_⟩
    · intro k w hk
      simp only [List.getElem?_set] at hk
      split at hk
      · rename_i hjk
        subst hjk
        split at hk
        · simp only [Option.some.injEq] at hk
          subst hk
          exact ⟨op0, data0, hop, hch, hdone⟩
        · simp at hk
      · exact hinv.workers k w hk
    · simp only [hinv.wg]
      omega
    · have hM := hinv.main
      unfold MainOK at hM ⊢
      simp only [List.length_set]
      exact hM
    · have hC := hinv.closer
      unfold CloserOK at hC ⊢
      simp only
      split at hC <;> simp_all
  · simp at h
  · simp at h
  · simp at h

theorem inv_next (env : Env) (ops : List UploadOperation) (file : File) (s t : State)
    (hinv : Inv env ops file s) (h : t ∈ next env ops s) : Inv env ops file t := by
  rcases (mem_next env ops s t).mp h with h | h | ⟨j, _, h⟩
  · exact inv_mainSteps env ops file s t hinv h
  · exact inv_closerSteps env ops file s t hinv h
  · exact inv_workerSteps env ops file s t j hinv h

theorem inv_run (env : Env) (ops : List UploadOperation) (file : File) (sched : List Nat)
    (s : State) (hinv : Inv env ops file s) : Inv env ops file (run env ops sched s) := by
  induction sched generalizing s with
  | nil => exact hinv
  | cons c rest ih =>
    simp only [run, List.foldl_cons]
    apply ih
    by_cases hn : next env ops s = []
    · rw [stepWith_rest env ops s c hn]
      exact hinv
    · exact inv_next env ops file s _ hinv (stepWith_mem env ops s c hn)

/-- The invariant holds in every state of every run of `Upload`. -/
theorem inv_Upload (env : Env) (ops : List UploadOperation) (file : File) (sched : List Nat) :
    Inv env ops file (Upload env ops file sched) :=
  inv_run env ops file sched _ (inv_initial env ops file)

/-! ## Runs of `Upload`: where a run can rest -/

theorem workerSteps_ne_nil (env : Env) (ops : List UploadOperation) (file : File) (s : State)
    (j : Nat) (w : WorkerPC) (hinv : Inv env ops file s) (hw : s.workers[j]? = some w)
    (hwf : w ≠ WorkerPC.finished) (hmain : s.main = MainPC.recv) :
    workerSteps env s j ≠ [] := by
  obtain ⟨op, data, _, _, hok⟩ := hinv.workers j w hw
  unfold workerSteps
  rw [hw]
  cases w with
  | start i op1 d1 =>
    simp only
    split <;> simp
  | call i op1 req =>
    simp only
    split <;> simp
  | sendErr e =>
    simp only [hmain, if_true]
    split <;> simp
  | done => simp
  | finished => exact absurd rfl hwf
  | panicked => exact absurd hok (by simp)

/-- Where a run can rest: `Upload` has returned, or it is in the send that
follows a failed `chunk`, or `chunk` has panicked. -/
theorem rest_main (env : Env) (ops : List UploadOperation) (file : File) (s : State)
    (hinv : Inv env ops file s) (hrest : next env ops s = []) :
    (∃ r, s.main = MainPC.returned r) ∨ (∃ i e, s.main = MainPC.sendErr i e)
      ∨ s.main = MainPC.panicked := by
  have hnone : ∀ t, ¬ t ∈ next env ops s := by
    intro t ht
    rw [hrest] at ht
    simp at ht
  cases hmain : s.main with
  | returned r => exact Or.inl ⟨r, rfl⟩
  | sendErr i e => exact Or.inr (Or.inl ⟨i, e, rfl⟩)
  | panicked => exact Or.inr (Or.inr rfl)
  | loop i =>
    exfalso
    have : mainSteps ops s ≠ [] := by
      unfold mainSteps
      rw [hmain]
      simp only
      split
      · split <;> simp
      · simp
    obtain ⟨t, ht⟩ := List.exists_mem_of_ne_nil _ this
    exact hnone t ((mem_next env ops s t).mpr (Or.inl ht))
  | recv =>
    exfalso
    have hM := hinv.main
    have hC := hinv.closer
    simp only [MainOK, hmain] at hM
    by_cases hclosed : s.closed = true
    · apply hnone { s with main := MainPC.returned none }
      refine (mem_next env ops s _).mpr (Or.inl ?_)
      simp [mainSteps, hmain, hclosed]
    · cases hc : s.closer with
      | absent => exact hM.2 hc
      | finished =>
        simp only [CloserOK, hc] at hC
        exact hclosed hC.1
      | closing =>
        apply hnone { s with closer := CloserPC.finished, closed := true }
        refine (mem_next env ops s _).mpr (Or.inr (Or.inl ?_))
        simp [closerSteps, hc]
      | waiting =>
        by_cases hwg : s.wg = 0
        · apply hnone { s with closer := CloserPC.closing }
          refine (mem_next env ops s _).mpr (Or.inr (Or.inl ?_))
          simp [closerSteps, hc, hwg]
        · have hex : ∃ (j : Nat) (w : WorkerPC), s.workers[j]? = some w ∧ w ≠ WorkerPC.finished := by
            by_contra hno
            apply hwg
            rw [hinv.wg]
            apply List.sum_eq_zero
            intro x hx
            rw [List.mem_map] at hx
            obtain ⟨w, hwmem, hwx⟩ := hx
            obtain ⟨j, hj, hjw⟩ := List.getElem_of_mem hwmem
            have hfin : w = WorkerPC.finished := by
              by_contra hne
              exact hno ⟨j, w, by rw [List.getElem?_eq_getElem hj, hjw], hne⟩
            rw [← hwx, hfin]
            rfl
          obtain ⟨j, w, hw, hwf⟩ := hex
          have hj : j < s.workers.length := (List.getElem?_eq_some_iff.mp hw).1
          obtain ⟨t, ht⟩ := List.exists_mem_of_ne_nil _
            (workerSteps_ne_nil env ops file s j w hinv hw hwf hmain)
          exact hnone t ((mem_next env ops s t).mpr (Or.inr (Or.inr ⟨j, hj, ht⟩)))

/-- Once the scheduler has made as many choices as `moveBound` allows, the
run of `Upload` rests in a state that satisfies the invariant. -/
theorem Upload_rests (env : Env) (ops : List UploadOperation) (file : File) (sched : List Nat)
    (hlen : moveBound ops.length ≤ sched.length) :
    Inv env ops file (Upload env ops file sched)
      ∧ next env ops (Upload env ops file sched) = [] := by
  refine ⟨inv_Upload env ops file sched, ?_⟩
  apply run_comes_to_rest
  simpa [State.moves, initial, MainPC.moves, CloserPC.moves, moveBound] using hlen

/-! ## `Upload`: what it returns -/

theorem sendChunk_errs_none (env : Env) (i : Nat) (op : UploadOperation) (data : List Byte)
    (req : Request) (hreq : request env op data = Except.ok req)
    (htr : env.transport i req = none) : (sendChunk env i op data).errs = none := by
  simp [sendChunk, hreq, htr]

/-- C7: when `chunk`, `request` and the transport call succeed for every
operation of the list, every run of `Upload` ends, whatever the scheduler
chooses, and `Upload` returns nil. -/
theorem Upload_all_succeed (env : Env) (ops : List UploadOperation) (file : File)
    (hall : ∀ i (h : i < ops.length), ∃ data req,
      (chunk ops[i] file).1 = ChunkResult.ret data ∧ request env ops[i] data = Except.ok req
        ∧ env.transport i req = none)
    (sched : List Nat) (hlen : moveBound ops.length ≤ sched.length) :
    (Upload env ops file sched).main = MainPC.returned none
      ∧ next env ops (Upload env ops file sched) = [] := by
  obtain ⟨hinv, hrest⟩ := Upload_rests env ops file sched hlen
  refine ⟨?_, hrest⟩
  have hM := hinv.main
  rcases rest_main env ops file _ hinv hrest with ⟨r, hr⟩ | ⟨i, e, hr⟩ | hr
  · cases r with
    | none => exact hr
    | some e =>
      exfalso
      simp only [MainOK, hr] at hM
      obtain ⟨_, _, j, op, data, hop, hch, herr⟩ := hM
      obtain ⟨hj, hjop⟩ := List.getElem?_eq_some_iff.mp hop
      obtain ⟨data1, req, h1, h2, h3⟩ := hall j hj
      rw [hjop, hch] at h1
      simp only [ChunkResult.ret.injEq] at h1
      subst h1
      rw [hjop] at h2
      rw [sendChunk_errs_none env j op data req h2 h3] at herr
      simp at herr
  · exfalso
    simp only [MainOK, hr] at hM
    obtain ⟨_, _, op, hop, _, hch⟩ := hM
    obtain ⟨hi, hiop⟩ := List.getElem?_eq_some_iff.mp hop
    obtain ⟨data1, req, h1, _, _⟩ := hall i hi
    rw [hiop, hch] at h1
    simp at h1
  · exfalso
    simp only [MainOK, hr] at hM
    obtain ⟨_, i, op, hop, hch⟩ := hM
    obtain ⟨hi, hiop⟩ := List.getElem?_eq_some_iff.mp hop
    obtain ⟨data1, req, h1, _, _⟩ := hall i hi
    rw [hiop, hch] at h1
    simp at h1

theorem Upload_all_succeed_witness :
    ((Upload okEnv testOperations (testFile 64) (List.replicate 29 0)).main = MainPC.returned none
      ∧ next okEnv testOperations (Upload okEnv testOperations (testFile 64) (List.replicate 29 0))
          = [])
    ∧ ((Upload okEnv [] (testFile 64) [0, 0, 0, 0]).main = MainPC.returned none
      ∧ next okEnv [] (Upload okEnv [] (testFile 64) [0, 0, 0, 0]) = []) :=
  ⟨Upload_all_succeed okEnv testOperations (testFile 64)
      (by
        intro i h
        have h5 : i < 5 := h
        interval_cases i <;> exact ⟨_, _, rfl, rfl, rfl⟩)
      (List.replicate 29 0) (by decide),
    Upload_all_succeed okEnv [] (testFile 64)
      (by
        intro i h
        exact absurd h (by simp))
      [0, 0, 0, 0] (by decide)⟩

/-- C8: when exactly one operation, the one at index `k`, fails, at `request`
or at the transport call, with error `e`, and every other operation succeeds
from `chunk` to the transport call, every run of `Upload` ends and `Upload`
returns the `UploadOperationError` made of operation `k` and `e`. -/
theorem Upload_one_failure (env : Env) (ops : List UploadOperation) (file : File) (k : Nat)
    (hk : k < ops.length) (e : GoError)
    (hfail : ∃ data, (chunk ops[k] file).1 = ChunkResult.ret data
      ∧ (request env ops[k] data = Except.error e
          ∨ ∃ req, request env ops[k] data = Except.ok req ∧ env.transport k req = some e))
    (hothers : ∀ i (h : i < ops.length), i ≠ k → ∃ data req,
      (chunk ops[i] file).1 = ChunkResult.ret data ∧ request env ops[i] data = Except.ok req
        ∧ env.transport i req = none)
    (sched : List Nat) (hlen : moveBound ops.length ≤ sched.length) :
    (Upload env ops file sched).main
      = MainPC.returned (some { Operation := ops[k], Err := e }) := by
  obtain ⟨hinv, hrest⟩ := Upload_rests env ops file sched hlen
  have hM := hinv.main
  obtain ⟨datak, hchk, hreqk⟩ := hfail
  have herrk : (sendChunk env k ops[k] datak).errs = some { Operation := ops[k], Err := e } := by
    rcases hreqk with hreq | ⟨req, hreq, htr⟩
    · simp [sendChunk, hreq]
    · simp [sendChunk, hreq, htr]
  have hret : ∀ i (h : i < ops.length), ∃ data, (chunk ops[i] file).1 = ChunkResult.ret data := by
    intro i h
    by_cases hik : i = k
    · subst hik
      exact ⟨datak, hchk⟩
    · obtain ⟨data, _, h1, _, _⟩ := hothers i h hik
      exact ⟨data, h1⟩
  rcases rest_main env ops file _ hinv hrest with ⟨r, hr⟩ | ⟨i, e1, hr⟩ | hr
  · cases r with
    | none =>
      exfalso
      simp only [MainOK, hr] at hM
      obtain ⟨hlenw, hclosed⟩ := hM
      have hC := hinv.closer
      have hwg : (Upload env ops file sched).wg = 0 := by
        unfold CloserOK at hC
        split at hC <;> simp_all
      have hkw : k < (Upload env ops file sched).workers.length := by omega
      have hget := List.getElem?_eq_getElem hkw
      have hfin := pending_eq_zero _ k _ hget (by rw [← hinv.wg]; exact hwg)
      rw [hfin] at hget
      obtain ⟨op, data, hop, hch, hdone⟩ := hinv.workers k _ hget
      obtain ⟨_, hkop⟩ := List.getElem?_eq_some_iff.mp hop
      subst hkop
      rw [hchk] at hch
      simp only [ChunkResult.ret.injEq] at hch
      subst hch
      rw [herrk, hr] at hdone
      simp at hdone
    | some e1 =>
      simp only [MainOK, hr] at hM
      obtain ⟨_, _, j, op, data, hop, hch, herr⟩ := hM
      obtain ⟨hj, hjop⟩ := List.getElem?_eq_some_iff.mp hop
      by_cases hjk : j = k
      · subst hjk
        subst hjop
        rw [hchk] at hch
        simp only [ChunkResult.ret.injEq] at hch
        subst hch
        rw [herrk] at herr
        simp only [Option.some.injEq] at herr
        rw [hr, herr]
      · exfalso
        obtain ⟨data1, req, h1, h2, h3⟩ := hothers j hj hjk
        rw [hjop, hch] at h1
        simp only [ChunkResult.ret.injEq] at h1
        subst h1
        rw [hjop] at h2
        rw [sendChunk_errs_none env j op data req h2 h3] at herr
        simp at herr
  · exfalso
    simp only [MainOK, hr] at hM
    obtain ⟨_, _, op, hop, _, hch⟩ := hM
    obtain ⟨hi, hiop⟩ := List.getElem?_eq_some_iff.mp hop
    obtain ⟨data1, h1⟩ := hret i hi
    rw [hiop, hch] at h1
    simp at h1
  · exfalso
    simp only [MainOK, hr] at hM
    obtain ⟨_, i, op, hop, hch⟩ := hM
    obtain ⟨hi, hiop⟩ := List.getElem?_eq_some_iff.mp hop
    obtain ⟨data1, h1⟩ := hret i hi
    rw [hiop, hch] at h1
    simp at h1

theorem Upload_one_failure_witness :
    (Upload secondFailsEnv testOperations (testFile 64) (List.range 29)).main
      = MainPC.returned
          (some { Operation := patchOp "server" 10 10, Err := GoError.transport 500 }) :=
  Upload_one_failure secondFailsEnv testOperations (testFile 64) 1 (by decide)
    (GoError.transport 500) ⟨_, rfl, Or.inr ⟨_, rfl, rfl⟩⟩
    (by
      intro i h hne
      have h5 : i < 5 := h
      interval_cases i
      · exact ⟨_, _, rfl, rfl, rfl⟩
      · exact absurd rfl hne
      · exact ⟨_, _, rfl, rfl, rfl⟩
      · exact ⟨_, _, rfl, rfl, rfl⟩
      · exact ⟨_, _, rfl, rfl, rfl⟩)
    (List.range 29) (by decide)

/-! ## `Upload`: a failed `chunk` -/

theorem run_single (env : Env) (ops : List UploadOperation) (s t : State)
    (h1 : next env ops s = [t]) (h2 : next env ops t = []) (sched : List Nat) :
    run env ops sched s = s ∨ run env ops sched s = t := by
  cases sched with
  | nil => exact Or.inl rfl
  | cons c rest =>
    right
    have hst : stepWith env ops s c = t := by
      simp [stepWith, h1]
    simp only [run, List.foldl_cons, hst]
    exact run_rest env ops rest t h2

/-- In no run does `Upload` return, or reach its receive, unless `chunk` has
succeeded for every operation of the list. -/
theorem Upload_past_loop_chunks (env : Env) (ops : List UploadOperation) (file : File)
    (sched : List Nat)
    (h : (Upload env ops file sched).main = MainPC.recv
      ∨ ∃ r, (Upload env ops file sched).main = MainPC.returned r)
    (i : Nat) (hi : i < ops.length) :
    ∃ data, (chunk ops[i] file).1 = ChunkResult.ret data := by
  have hinv := inv_Upload env ops file sched
  have hM := hinv.main
  have hlen : (Upload env ops file sched).workers.length = ops.length := by
    rcases h with h | ⟨r, h⟩
    · simp only [MainOK, h] at hM
      exact hM.1
    · cases r with
      | none =>
        simp only [MainOK, h] at hM
        exact hM.1
      | some e =>
        simp only [MainOK, h] at hM
        exact hM.1
  have hiw : i < (Upload env ops file sched).workers.length := by omega
  obtain ⟨op, data, hop, hch, _⟩ := hinv.workers i _ (List.getElem?_eq_getElem hiw)
  obtain ⟨_, hiop⟩ := List.getElem?_eq_some_iff.mp hop
  exact ⟨data, by rw [hiop]; exact hch⟩

/-- C9: for the list of an operation without an offset and a second
operation, on the file of 64 bytes, `Upload` never returns, whatever the
scheduler chooses: after the failed `chunk` it stays in the send of the error,
and the second operation is never reached. -/
theorem Upload_chunk_failure_blocks (sched : List Nat) :
    (∀ r, (Upload okEnv noOffsetOperations (testFile 64) sched).main ≠ MainPC.returned r)
      ∧ ((Upload okEnv noOffsetOperations (testFile 64) sched).main = MainPC.loop 0
          ∨ (Upload okEnv noOffsetOperations (testFile 64) sched).main
              = MainPC.sendErr 0
                  { Operation := { patchOp "server" 0 10 with Offset := none },
                    Err := GoError.errorsNew "could not establish bounds of upload operation" })
      ∧ (Upload okEnv noOffsetOperations (testFile 64) sched).file.calls = [] := by
  have h := run_single okEnv noOffsetOperations (initial (testFile 64))
    { initial (testFile 64) with
      main := MainPC.sendErr 0
        { Operation := { patchOp "server" 0 10 with Offset := none }, Err := boundsError } }
    (by decide) (by decide) sched
  unfold Upload
  rcases h with h | h <;> rw [h] <;> simp [initial, boundsError, testFile]

/-- C10: for the list of an operation that starts past the end of the file
of 64 bytes and a second operation whose `chunk` and `request` succeed, no
request is ever handed to the transport and no `sendChunk` goroutine is ever
started, whatever the scheduler chooses. -/
theorem Upload_chunk_failure_stops_siblings (sched : List Nat) :
    (Upload okEnv pastEndOperations (testFile 64) sched).calls = []
      ∧ (Upload okEnv pastEndOperations (testFile 64) sched).workers = []
      ∧ (∃ data req, (chunk (patchOp "server" 0 10) (testFile 64)).1 = ChunkResult.ret data
          ∧ request okEnv (patchOp "server" 0 10) data = Except.ok req) := by
  have h := run_single okEnv pastEndOperations (initial (testFile 64))
    { initial (testFile 64) with
      main := MainPC.sendErr 0 { Operation := patchOp "server" 100 10, Err := GoError.eof },
      file := { testFile 64 with pos := 100, calls := [FileCall.seek 100, FileCall.read 10] } }
    (by decide) (by decide) sched
  unfold Upload
  refine ⟨?_, ?_, ⟨_, _, rfl, rfl⟩⟩
  · rcases h with h | h <;> rw [h] <;> rfl
  · rcases h with h | h <;> rw [h] <;> rfl

/-! ## `chunk` and `request`: size of the reader, causes of failure -/

/-- C15: whenever `chunk` succeeds, whatever the size of the file, the
operation has a length, the length is not negative, and the reader holds
exactly that many bytes. -/
theorem chunk_ret_length (op : UploadOperation) (f f1 : File) (data : List Byte)
    (h : chunk op f = (ChunkResult.ret data, f1)) :
    ∃ l : Int, op.Length = some l ∧ 0 ≤ l ∧ (data.length : Int) = l := by
  unfold chunk chunkWith at h
  split at h
  · rename_i off len hoff hlen
    refine ⟨len, hlen, ?_⟩
    by_cases h1 : off < 0
    · simp [File.Seek, h1] at h
    · by_cases h2 : len < 0 ∨ maxAlloc < len
      · simp [File.Seek, h1, h2] at h
      · have h0 : 0 ≤ len := by omega
        refine ⟨h0, ?_⟩
        simp only [File.Seek, h1, h2, if_false, File.Read, List.length_replicate] at h
        split_ifs at h with hz hg
        · simp only [Prod.mk.injEq, ChunkResult.ret.injEq] at h
          rw [← h.1]
          simp [h0]
        · simp at h
        · simp only [Prod.mk.injEq, ChunkResult.ret.injEq] at h
          rw [← h.1]
          simp only [List.length_append, List.length_take, List.length_drop,
            List.length_replicate]
          omega
  · simp at h

theorem chunk_ret_length_witness :
    ∃ l : Int, (patchOp "test" 0 10).Length = some l ∧ 0 ≤ l
      ∧ (([0, 1, 2, 3, 4, 0, 0, 0, 0, 0] : List Byte).length : Int) = l :=
  chunk_ret_length (patchOp "test" 0 10) (testFile 5)
    { testFile 5 with pos := 5, calls := [FileCall.seek 0, FileCall.read 10] }
    [0, 1, 2, 3, 4, 0, 0, 0, 0, 0] (by decide)

/-- C16: `request` fails exactly when the method is absent, the url is absent,
or the HTTP library rejects the two, and then with the library's error; the
headers of the operation have no part in it. -/
theorem request_fails_iff (env : Env) (op : UploadOperation) (data : List Byte) :
    ((∃ e, request env op data = Except.error e) ↔
        (op.Method = none ∨ op.URL = none
          ∨ ∃ m u e, op.Method = some m ∧ op.URL = some u ∧ env.newRequestCheck m u = some e))
      ∧ (∀ m u e, op.Method = some m → op.URL = some u → env.newRequestCheck m u = some e →
          request env op data = Except.error e)
      ∧ (∀ hs e, request env { op with RequestHeaders := hs } data = Except.error e ↔
          request env op data = Except.error e) := by
  refine ⟨?_, ?_, ?_⟩
  · cases hm : op.Method with
    | none => simp [request, hm]
    | some m =>
      cases hu : op.URL with
      | none => simp [request, hm, hu]
      | some u =>
        cases hc : env.newRequestCheck m u with
        | none => simp [request, hm, hu, hc]
        | some e => simp [request, hm, hu, hc]
  · intro m u e hm hu hc
    simp [request, hm, hu, hc]
  · intro hs e
    cases hm : op.Method with
    | none => simp [request, hm]
    | some m =>
      cases hu : op.URL with
      | none => simp [request, hm, hu]
      | some u =>
        cases hc : env.newRequestCheck m u with
        | none => simp [request, hm, hu, hc]
        | some e1 => simp [request, hm, hu, hc]

/-! ## `Upload`: what a return tells -/

theorem sendChunk_errs_none_iff (env : Env) (i : Nat) (op : UploadOperation)
    (data : List Byte) :
    (sendChunk env i op data).errs = none ↔
      ∃ req, request env op data = Except.ok req ∧ env.transport i req = none := by
  unfold sendChunk
  cases hreq : request env op data with
  | error e => simp
  | ok req =>
    cases htr : env.transport i req with
    | none => simp [htr]
    | some e => simp [htr]

theorem sendChunk_errs_some (env : Env) (i : Nat) (op : UploadOperation) (data : List Byte)
    (e : UploadOperationError) (h : (sendChunk env i op data).errs = some e) :
    e.Operation = op
      ∧ (request env op data = Except.error e.Err
          ∨ ∃ req, request env op data = Except.ok req ∧ env.transport i req = some e.Err) := by
  unfold sendChunk at h
  cases hreq : request env op data with
  | error e1 =>
    simp only [hreq, Option.some.injEq] at h
    subst h
    simp
  | ok req =>
    cases htr : env.transport i req with
    | none => simp [hreq, htr] at h
    | some e1 =>
      simp only [hreq, htr, Option.some.injEq] at h
      subst h
      simp [htr]

/-- When `Upload` has returned nil, every `sendChunk` goroutine has ended. -/
theorem returned_nil_finished (env : Env) (ops : List UploadOperation) (file : File)
    (s : State) (hinv : Inv env ops file s) (h : s.main = MainPC.returned none) :
    s.workers.length = ops.length ∧ s.closer = CloserPC.finished
      ∧ ∀ (j : Nat) (w : WorkerPC), s.workers[j]? = some w → w = WorkerPC.finished := by
  have hM := hinv.main
  simp only [MainOK, h] at hM
  have hC := hinv.closer
  have hcl : s.closer = CloserPC.finished ∧ s.wg = 0 := by
    unfold CloserOK at hC
    split at hC <;> simp_all
  refine ⟨hM.1, hcl.1, ?_⟩
  intro j w hw
  exact pending_eq_zero _ j w hw (by rw [← hinv.wg]; exact hcl.2)

/-- C11: if `Upload` has returned nil, in whatever run, then for every
operation of the list `chunk`, `request` and the transport call have
succeeded. -/
theorem Upload_nil_all_succeeded (env : Env) (ops : List UploadOperation) (file : File)
    (sched : List Nat) (h : (Upload env ops file sched).main = MainPC.returned none)
    (i : Nat) (hi : i < ops.length) :
    ∃ data req, (chunk ops[i] file).1 = ChunkResult.ret data
      ∧ request env ops[i] data = Except.ok req ∧ env.transport i req = none := by
  have hinv := inv_Upload env ops file sched
  obtain ⟨hlen, _, hfin⟩ := returned_nil_finished env ops file _ hinv h
  have hiw : i < (Upload env ops file sched).workers.length := by omega
  have hget := List.getElem?_eq_getElem hiw
  have hw := hfin i _ hget
  rw [hw] at hget
  obtain ⟨op, data, hop, hch, hdone⟩ := hinv.workers i _ hget
  obtain ⟨_, hiop⟩ := List.getElem?_eq_some_iff.mp hop
  subst hiop
  have herr : (sendChunk env i ops[i] data).errs = none := by
    rcases hdone with hdone | hdone
    · exact hdone
    · rw [h] at hdone
      simp only [MainPC.returned.injEq] at hdone
      exact hdone.symm
  obtain ⟨req, hreq, htr⟩ := (sendChunk_errs_none_iff env i ops[i] data).mp herr
  exact ⟨data, req, hch, hreq, htr⟩

theorem Upload_nil_all_succeeded_witness :
    ∃ data req, (chunk singleOperation[0] (testFile 20)).1 = ChunkResult.ret data
      ∧ request okEnv singleOperation[0] data = Except.ok req ∧ okEnv.transport 0 req = none :=
  Upload_nil_all_succeeded okEnv singleOperation (testFile 20) (List.replicate 9 0)
    (by decide) 0 (by decide)

/-- C12: if `Upload` has returned an error, in whatever run, the error is one
`UploadOperationError` whose operation is an operation of the list and whose
error is the one that this operation got from its own `chunk`, from its own
`request` or from its own transport call. -/
theorem Upload_error_own (env : Env) (ops : List UploadOperation) (file : File)
    (sched : List Nat) (e : UploadOperationError)
    (h : (Upload env ops file sched).main = MainPC.returned (some e)) :
    ∃ (j : Nat) (hj : j < ops.length), e.Operation = ops[j]
      ∧ ((chunk ops[j] file).1 = ChunkResult.err e.Err
          ∨ ∃ data, (chunk ops[j] file).1 = ChunkResult.ret data
              ∧ (request env ops[j] data = Except.error e.Err
                  ∨ ∃ req, request env ops[j] data = Except.ok req
                      ∧ env.transport j req = some e.Err)) := by
  have hinv := inv_Upload env ops file sched
  have hM := hinv.main
  simp only [MainOK, h] at hM
  obtain ⟨_, _, j, op, data, hop, hch, herr⟩ := hM
  obtain ⟨hj, hjop⟩ := List.getElem?_eq_some_iff.mp hop
  subst hjop
  obtain ⟨h1, h2⟩ := sendChunk_errs_some env j ops[j] data e herr
  exact ⟨j, hj, h1, Or.inr ⟨data, hch, h2⟩⟩

theorem Upload_error_own_witness :
    ∃ (j : Nat) (hj : j < testOperations.length),
      secondError.Operation = testOperations[j]
      ∧ ((chunk testOperations[j] (testFile 64)).1 = ChunkResult.err secondError.Err
          ∨ ∃ data, (chunk testOperations[j] (testFile 64)).1 = ChunkResult.ret data
              ∧ (request secondFailsEnv testOperations[j] data = Except.error secondError.Err
                  ∨ ∃ req, request secondFailsEnv testOperations[j] data = Except.ok req
                      ∧ secondFailsEnv.transport j req = some secondError.Err)) :=
  Upload_error_own secondFailsEnv testOperations (testFile 64) [0, 0, 0, 0, 0, 0, 1, 1, 1]
    secondError (by decide)

/-! ## Runs of `Upload`: the log of the transport calls -/

theorem callsOK_set (env : Env) (ops : List UploadOperation) (file : File)
    (workers : List WorkerPC) (calls calls1 : List (Nat × Request)) (j0 : Nat)
    (w0 w1 : WorkerPC) (h : CallsOK env ops file workers calls) (hw : workers[j0]? = some w0)
    (hsame : ∀ j, j ≠ j0 →
      calls1.filter (fun p => decide (p.1 = j)) = calls.filter (fun p => decide (p.1 = j)))
    (hnew : calls1.filter (fun p => decide (p.1 = j0)) = loggedCalls env ops file j0 (some w1)) :
    CallsOK env ops file (workers.set j0 w1) calls1 := by
  intro j
  have hlt : j0 < workers.length := (List.getElem?_eq_some_iff.mp hw).1
  by_cases hj : j = j0
  · subst hj
    rw [List.getElem?_set_self hlt]
    exact hnew
  · rw [List.getElem?_set_ne (fun h => hj h.symm), hsame j hj]
    exact h j

theorem filter_append_other (calls : List (Nat × Request)) (i j : Nat) (req : Request)
    (h : j ≠ i) :
    (calls ++ [(i, req)]).filter (fun p => decide (p.1 = j))
      = calls.filter (fun p => decide (p.1 = j)) := by
  have : ¬ i = j := fun hij => h hij.symm
  simp [List.filter_append, List.filter_cons, this]

theorem callsOK_workerSteps (env : Env) (ops : List UploadOperation) (file : File)
    (s t : State) (j : Nat) (hinv : Inv env ops file s)
    (hc : CallsOK env ops file s.workers s.calls) (h : t ∈ workerSteps env s j) :
    CallsOK env ops file t.workers t.calls := by
  unfold workerSteps at h
  split at h
  · rename_i i op data hw
    obtain ⟨op0, data0, hop, hch, hi, ho, hd⟩ := hinv.workers j _ hw
    subst hi ho hd
    have hold := hc i
    rw [hw] at hold
    simp only [loggedCalls, WorkerPC.pastCall] at hold
    split at h <;> rename_i hreq <;> simp only [List.mem_singleton] at h <;> subst h
    · refine callsOK_set env ops file _ _ _ i _ _ hc hw (fun _ _ => rfl) ?_
      rw [hold]
      simp [loggedCalls, WorkerPC.pastCall, operationCalls, hop, hch, sendChunk, hreq]
    · refine callsOK_set env ops file _ _ _ i _ _ hc hw (fun _ _ => rfl) ?_
      rw [hold]
      simp [loggedCalls, WorkerPC.pastCall]
  · rename_i i op req hw
    obtain ⟨op0, data0, hop, hch, hi, ho, hreq⟩ := hinv.workers j _ hw
    subst hi ho
    have hold := hc i
    rw [hw] at hold
    simp only [loggedCalls, WorkerPC.pastCall] at hold
    split at h <;> rename_i htr <;> simp only [List.mem_singleton] at h <;> subst h
    · refine callsOK_set env ops file _ _ _ i _ _ hc hw
        (fun k hk => filter_append_other _ i k req hk) ?_
      simp only [List.filter_append, hold]
      simp [loggedCalls, WorkerPC.pastCall, operationCalls, hop, hch, sendChunk, hreq, htr]
    · refine callsOK_set env ops file _ _ _ i _ _ hc hw
        (fun k hk => filter_append_other _ i k req hk) ?_
      simp only [List.filter_append, hold]
      simp [loggedCalls, WorkerPC.pastCall, operationCalls, hop, hch, sendChunk, hreq, htr]
  · rename_i e hw
    have hold := hc j
    rw [hw] at hold
    split at h
    · simp only [List.mem_singleton] at h
      subst h
      exact callsOK_set env ops file _ _ _ j _ _ hc hw (fun _ _ => rfl) hold
    · split at h
      · simp only [List.mem_singleton] at h
        subst h
        exact callsOK_set env ops file _ _ _ j _ _ hc hw (fun _ _ => rfl) hold
      · simp at h
  · rename_i hw
    have hold := hc j
    rw [hw] at hold
    simp only [List.mem_singleton] at h
    subst h
    exact callsOK_set env ops file _ _ _ j _ _ hc hw (fun _ _ => rfl) hold
  · simp at h
  · simp at h
  · simp at h

theorem callsOK_mainSteps (env : Env) (ops : List UploadOperation) (file : File)
    (s t : State) (hc : CallsOK env ops file s.workers s.calls) (h : t ∈ mainSteps ops s) :
    CallsOK env ops file t.workers t.calls := by
  unfold mainSteps at h
  split at h
  · split at h
    · split at h <;> simp only [List.mem_singleton] at h <;> subst h
      · intro j
        simp only
        rcases Nat.lt_trichotomy j s.workers.length with hj | hj | hj
        · rw [List.getElem?_append_left hj]
          exact hc j
        · have := hc j
          rw [List.getElem?_eq_none (by omega)] at this
          subst hj
          rw [List.getElem?_concat_length, this]
          simp [loggedCalls, WorkerPC.pastCall]
        · have := hc j
          rw [List.getElem?_eq_none (by omega)] at this
          rw [List.getElem?_eq_none (by simp; omega), this]
      · exact hc
      · exact hc
    · simp only [List.mem_singleton] at h
      subst h
      exact hc
  · simp at h
  · split at h
    · simp only [List.mem_singleton] at h
      subst h
      exact hc
    · simp at h
  · simp at h
  · simp at h

theorem callsOK_closerSteps (env : Env) (ops : List UploadOperation) (file : File)
    (s t : State) (hc : CallsOK env ops file s.workers s.calls) (h : t ∈ closerSteps s) :
    CallsOK env ops file t.workers t.calls := by
  unfold closerSteps at h
  split at h
  · simp at h
  · split at h
    · simp only [List.mem_singleton] at h
      subst h
      exact hc
    · simp at h
  · simp only [List.mem_singleton] at h
    subst h
    exact hc
  · simp at h

theorem callsOK_run (env : Env) (ops : List UploadOperation) (file : File) (sched : List Nat)
    (s : State) (hinv : Inv env ops file s) (hc : CallsOK env ops file s.workers s.calls) :
    CallsOK env ops file (run env ops sched s).workers (run env ops sched s).calls := by
  induction sched generalizing s with
  | nil => exact hc
  | cons c rest ih =>
    simp only [run, List.foldl_cons]
    by_cases hn : next env ops s = []
    · rw [stepWith_rest env ops s c hn]
      exact ih s hinv hc
    · have hmem := stepWith_mem env ops s c hn
      apply ih _ (inv_next env ops file s _ hinv hmem)
      rcases (mem_next env ops s _).mp hmem with h | h | ⟨j, _, h⟩
      · exact callsOK_mainSteps env ops file s _ hc h
      · exact callsOK_closerSteps env ops file s _ hc h
      · exact callsOK_workerSteps env ops file s _ j hinv hc h

/-- The log of the transport calls agrees with where the goroutines stand, in
every state of every run of `Upload`. -/
theorem callsOK_Upload (env : Env) (ops : List UploadOperation) (file : File)
    (sched : List Nat) :
    CallsOK env ops file (Upload env ops file sched).workers (Upload env ops file sched).calls :=
  callsOK_run env ops file sched _ (inv_initial env ops file)
    (by intro j; simp [initial, loggedCalls])

theorem length_eq_sum_filter (l : List (Nat × Request)) (n : Nat) (h : ∀ p ∈ l, p.1 < n) :
    l.length = ∑ j in Finset.range n, (l.filter (fun p => decide (p.1 = j))).length := by
  induction l with
  | nil => simp
  | cons p rest ih =>
    have hp : p.1 < n := h p (List.mem_cons_self _ _)
    have hrest := ih (fun q hq => h q (List.mem_cons_of_mem _ hq))
    have hstep : ∀ j, ((p :: rest).filter (fun q => decide (q.1 = j))).length
        = (rest.filter (fun q => decide (q.1 = j))).length + if p.1 = j then 1 else 0 := by
      intro j
      by_cases hj : p.1 = j
      · simp [List.filter_cons, hj]
      · simp [List.filter_cons, hj]
    simp only [hstep, Finset.sum_add_distrib, Finset.sum_ite_eq, Finset.mem_range, hp, if_true,
      List.length_cons]
    omega

theorem calls_index_lt (env : Env) (ops : List UploadOperation) (file : File)
    (workers : List WorkerPC) (calls : List (Nat × Request))
    (hc : CallsOK env ops file workers calls) (p : Nat × Request) (hp : p ∈ calls) :
    p.1 < workers.length := by
  by_contra hlt
  have h := hc p.1
  rw [List.getElem?_eq_none (by omega)] at h
  have hmem : p ∈ calls.filter (fun q => decide (q.1 = p.1)) := by
    simp [List.mem_filter, hp]
  rw [h] at hmem
  simp [loggedCalls] at hmem

/-- When every started goroutine is past its call, the log holds, for each of
them, exactly the calls that `sendChunk` makes for its operation. -/
theorem calls_of_pastCall (env : Env) (ops : List UploadOperation) (file : File)
    (s : State) (hc : CallsOK env ops file s.workers s.calls)
    (hpast : ∀ (j : Nat) (w : WorkerPC), s.workers[j]? = some w → w.pastCall = true) :
    (∀ j, j < s.workers.length →
        s.calls.filter (fun p => decide (p.1 = j)) = operationCalls env ops file j)
      ∧ s.calls.length
          = ∑ j in Finset.range s.workers.length, (operationCalls env ops file j).length := by
  have hfil : ∀ j, j < s.workers.length →
      s.calls.filter (fun p => decide (p.1 = j)) = operationCalls env ops file j := by
    intro j hj
    have h := hc j
    have hget := List.getElem?_eq_getElem hj
    rw [hget] at h
    simp only [loggedCalls, hpast j _ hget, if_true] at h
    exact h
  refine ⟨hfil, ?_⟩
  rw [length_eq_sum_filter s.calls s.workers.length
    (fun p hp => calls_index_lt env ops file _ _ hc p hp)]
  apply Finset.sum_congr rfl
  intro j hj
  rw [hfil j (Finset.mem_range.mp hj)]

theorem operationCalls_ok (env : Env) (ops : List UploadOperation) (file : File) (j : Nat)
    (hj : j < ops.length) (data : List Byte) (req : Request)
    (hch : (chunk ops[j] file).1 = ChunkResult.ret data)
    (hreq : request env ops[j] data = Except.ok req) :
    operationCalls env ops file j = [(j, req)] := by
  unfold operationCalls
  rw [List.getElem?_eq_getElem hj]
  simp only [hch, sendChunk, hreq]
  split <;> rfl

/-- A state at rest has every started goroutine past its call. -/
theorem rest_pastCall (env : Env) (ops : List UploadOperation) (s : State)
    (hrest : next env ops s = []) (j : Nat) (w : WorkerPC) (hw : s.workers[j]? = some w) :
    w.pastCall = true := by
  have hj : j < s.workers.length := (List.getElem?_eq_some_iff.mp hw).1
  have hnone : workerSteps env s j = [] := by
    by_contra hne
    obtain ⟨t, ht⟩ := List.exists_mem_of_ne_nil _ hne
    have := (mem_next env ops s t).mpr (Or.inr (Or.inr ⟨j, hj, ht⟩))
    rw [hrest] at this
    simp at this
  cases w with
  | start i op data =>
    exfalso
    simp only [workerSteps, hw] at hnone
    split at hnone <;> simp at hnone
  | call i op req =>
    exfalso
    simp only [workerSteps, hw] at hnone
    split at hnone <;> simp at hnone
  | sendErr e => rfl
  | done => rfl
  | finished => rfl
  | panicked => rfl

/-- When `chunk` and `request` succeed for every operation, a run of `Upload`
that has come to rest has handed the transport one request per operation and
no other: the one that `request` makes of the operation and of the bytes that
`chunk` got for it. -/
theorem Upload_calls_at_rest (env : Env) (ops : List UploadOperation) (file : File)
    (hall : ∀ i (h : i < ops.length), ∃ data req,
      (chunk ops[i] file).1 = ChunkResult.ret data ∧ request env ops[i] data = Except.ok req)
    (sched : List Nat) (hlen : moveBound ops.length ≤ sched.length) :
    (Upload env ops file sched).calls.length = ops.length
      ∧ ∀ i (h : i < ops.length), ∃ data req,
          (chunk ops[i] file).1 = ChunkResult.ret data ∧ request env ops[i] data = Except.ok req
            ∧ (Upload env ops file sched).calls.filter (fun p => decide (p.1 = i)) = [(i, req)] := by
  obtain ⟨hinv, hrest⟩ := Upload_rests env ops file sched hlen
  have hc := callsOK_Upload env ops file sched
  have hM := hinv.main
  have hwlen : (Upload env ops file sched).workers.length = ops.length := by
    rcases rest_main env ops file _ hinv hrest with ⟨r, hr⟩ | ⟨i, e, hr⟩ | hr
    · cases r with
      | none =>
        simp only [MainOK, hr] at hM
        exact hM.1
      | some e =>
        simp only [MainOK, hr] at hM
        exact hM.1
    · exfalso
      simp only [MainOK, hr] at hM
      obtain ⟨_, _, op, hop, _, hch⟩ := hM
      obtain ⟨hi, hiop⟩ := List.getElem?_eq_some_iff.mp hop
      obtain ⟨data1, _, h1, _⟩ := hall i hi
      rw [hiop, hch] at h1
      simp at h1
    · exfalso
      simp only [MainOK, hr] at hM
      obtain ⟨_, i, op, hop, hch⟩ := hM
      obtain ⟨hi, hiop⟩ := List.getElem?_eq_some_iff.mp hop
      obtain ⟨data1, _, h1, _⟩ := hall i hi
      rw [hiop, hch] at h1
      simp at h1
  obtain ⟨hfil, hsum⟩ := calls_of_pastCall env ops file _ hc
    (fun j w hw => rest_pastCall env ops _ hrest j w hw)
  have hone : ∀ j, j < ops.length → (operationCalls env ops file j).length = 1 := by
    intro j hj
    obtain ⟨data, req, h1, h2⟩ := hall j hj
    rw [operationCalls_ok env ops file j hj data req h1 h2]
    rfl
  constructor
  · rw [hsum, hwlen, Finset.sum_congr rfl (fun j hj => hone j (Finset.mem_range.mp hj))]
    simp
  · intro i hi
    obtain ⟨data, req, h1, h2⟩ := hall i hi
    refine ⟨data, req, h1, h2, ?_⟩
    rw [hfil i (by omega), operationCalls_ok env ops file i hi data req h1 h2]

/-- C13: on a file of 5 bytes, the run of `Upload` over the single operation
with offset 0 and length 10 ends with nil and with one request handed to the
transport, whose body is of 10 bytes: the 5 bytes of the file and 5 zero
bytes. -/
theorem Upload_short_file_body :
    (Upload okEnv singleOperation (testFile 5) (List.replicate 9 0)).main = MainPC.returned none
      ∧ (Upload okEnv singleOperation (testFile 5) (List.replicate 9 0)).calls = [shortFileRequest]
      ∧ (testFile 5).content.length = 5 := by
  decide

/-- C14: an operation for which `chunk` does not succeed never gets a
`sendChunk` goroutine, nor does any later operation, and no request is ever
handed to the transport for it, in whatever run. -/
theorem Upload_no_request_after_failed_chunk (env : Env) (ops : List UploadOperation)
    (file : File) (sched : List Nat) (k : Nat) (hk : k < ops.length)
    (hfail : ∀ data, (chunk ops[k] file).1 ≠ ChunkResult.ret data) :
    (Upload env ops file sched).workers.length ≤ k
      ∧ ∀ req, ¬ (k, req) ∈ (Upload env ops file sched).calls := by
  have hinv := inv_Upload env ops file sched
  have hc := callsOK_Upload env ops file sched
  have hle : (Upload env ops file sched).workers.length ≤ k := by
    by_contra hlt
    have hkw : k < (Upload env ops file sched).workers.length := by omega
    obtain ⟨op, data, hop, hch, _⟩ := hinv.workers k _ (List.getElem?_eq_getElem hkw)
    obtain ⟨_, hkop⟩ := List.getElem?_eq_some_iff.mp hop
    rw [← hkop] at hch
    exact hfail data hch
  refine ⟨hle, ?_⟩
  intro req hmem
  have := calls_index_lt env ops file _ _ hc (k, req) hmem
  simp only at this
  omega

theorem Upload_no_request_after_failed_chunk_witness :
    (Upload okEnv pastEndOperations (testFile 64) [0, 0, 0]).workers.length ≤ 0
      ∧ ∀ req, ¬ (0, req) ∈ (Upload okEnv pastEndOperations (testFile 64) [0, 0, 0]).calls :=
  Upload_no_request_after_failed_chunk okEnv pastEndOperations (testFile 64) [0, 0, 0] 0
    (by decide)
    (by
      intro data h
      have h2 : (chunk pastEndOperations[0] (testFile 64)).1 = ChunkResult.err GoError.eof := by
        decide
      rw [h2] at h
      exact ChunkResult.noConfusion h)

/-- C17: whenever `Upload` has returned nil, every operation has had its
`sendChunk` goroutine, every one of them has ended, and the log holds the
transport call of every operation, completed without error: as many calls as
operations. -/
theorem Upload_nil_after_all_calls (env : Env) (ops : List UploadOperation) (file : File)
    (sched : List Nat) (h : (Upload env ops file sched).main = MainPC.returned none) :
    (Upload env ops file sched).workers = List.replicate ops.length WorkerPC.finished
      ∧ (Upload env ops file sched).calls.length = ops.length
      ∧ ∀ i (hi : i < ops.length), ∃ data req,
          (chunk ops[i] file).1 = ChunkResult.ret data ∧ request env ops[i] data = Except.ok req
            ∧ env.transport i req = none ∧ (i, req) ∈ (Upload env ops file sched).calls := by
  have hinv := inv_Upload env ops file sched
  have hc := callsOK_Upload env ops file sched
  obtain ⟨hlen, _, hfin⟩ := returned_nil_finished env ops file _ hinv h
  have hsucc : ∀ i (hi : i < ops.length), ∃ data req,
      (chunk ops[i] file).1 = ChunkResult.ret data ∧ request env ops[i] data = Except.ok req
        ∧ env.transport i req = none := by
    intro i hi
    have hiw : i < (Upload env ops file sched).workers.length := by omega
    have hget := List.getElem?_eq_getElem hiw
    have hw := hfin i _ hget
    rw [hw] at hget
    obtain ⟨op, data, hop, hch, hdone⟩ := hinv.workers i _ hget
    obtain ⟨_, hiop⟩ := List.getElem?_eq_some_iff.mp hop
    subst hiop
    have herr : (sendChunk env i ops[i] data).errs = none := by
      rcases hdone with hdone | hdone
      · exact hdone
      · rw [h] at hdone
        simp only [MainPC.returned.injEq] at hdone
        exact hdone.symm
    obtain ⟨req, hreq, htr⟩ := (sendChunk_errs_none_iff env i ops[i] data).mp herr
    exact ⟨data, req, hch, hreq, htr⟩
  obtain ⟨hfil, hsum⟩ := calls_of_pastCall env ops file _ hc
    (fun j w hw => by rw [hfin j w hw]; rfl)
  refine ⟨?_, ?_, ?_⟩
  · apply List.ext_getElem?
    intro j
    by_cases hj : j < ops.length
    · have hjw : j < (Upload env ops file sched).workers.length := by omega
      have hget := List.getElem?_eq_getElem hjw
      rw [hfin j _ hget] at hget
      rw [hget, List.getElem?_eq_getElem (by simpa using hj)]
      simp
    · rw [List.getElem?_eq_none (by omega), List.getElem?_eq_none (by simp; omega)]
  · have hone : ∀ j, j < ops.length → (operationCalls env ops file j).length = 1 := by
      intro j hj
      obtain ⟨data, req, h1, h2, _⟩ := hsucc j hj
      rw [operationCalls_ok env ops file j hj data req h1 h2]
      rfl
    rw [hsum, hlen, Finset.sum_congr rfl (fun j hj => hone j (Finset.mem_range.mp hj))]
    simp
  · intro i hi
    obtain ⟨data, req, h1, h2, h3⟩ := hsucc i hi
    refine ⟨data, req, h1, h2, h3, ?_⟩
    have hf := hfil i (by omega)
    rw [operationCalls_ok env ops file i hi data req h1 h2] at hf
    have hmem : (i, req) ∈ (Upload env ops file sched).calls.filter
        (fun p => decide (p.1 = i)) := by
      rw [hf]
      exact List.mem_singleton.mpr rfl
    exact (List.mem_filter.mp hmem).1

theorem Upload_nil_after_all_calls_witness :
    (Upload okEnv singleOperation (testFile 20) (List.replicate 9 0)).workers
        = List.replicate singleOperation.length WorkerPC.finished
      ∧ (Upload okEnv singleOperation (testFile 20) (List.replicate 9 0)).calls.length
          = singleOperation.length
      ∧ ∀ i (hi : i < singleOperation.length), ∃ data req,
          (chunk singleOperation[i] (testFile 20)).1 = ChunkResult.ret data
            ∧ request okEnv singleOperation[i] data = Except.ok req
            ∧ okEnv.transport i req = none
            ∧ (i, req) ∈ (Upload okEnv singleOperation (testFile 20) (List.replicate 9 0)).calls :=
  Upload_nil_after_all_calls okEnv singleOperation (testFile 20) (List.replicate 9 0)
    (by decide)

/-! ## `Upload`: when it returns, and the calls on the file -/

/-- C18, as the claim has it, fails: with a transport that fails for the
second of the five test operations, there is a run in which `Upload` has
returned that operation's error while none of the five `sendChunk` goroutines
has ended. -/
theorem Upload_returns_before_tasks_finish :
    (Upload secondFailsEnv testOperations (testFile 64) [0, 0, 0, 0, 0, 0, 1, 1, 1]).main
        = MainPC.returned (some secondError)
      ∧ (Upload secondFailsEnv testOperations (testFile 64)
          [0, 0, 0, 0, 0, 0, 1, 1, 1]).workers.map WorkerPC.pending = [1, 1, 1, 1, 1]
      ∧ (Upload secondFailsEnv testOperations (testFile 64)
          [0, 0, 0, 0, 0, 0, 1, 1, 1]).workers[0]?
          = some (WorkerPC.start 0 (patchOp "server" 0 10) [0, 1, 2, 3, 4, 5, 6, 7, 8, 9]) := by
  decide

/-- What a move of the `j`-th `sendChunk` goroutine does to the goroutines:
it replaces the `j`-th one, which had not ended; either `Upload` stays where
it is, and a goroutine that was past its body ends, or the goroutine hands its
error to the receive of `Upload`, which returns it. -/
theorem workerSteps_shape (env : Env) (s t : State) (j : Nat) (h : t ∈ workerSteps env s j) :
    ∃ w0 w1, s.workers[j]? = some w0 ∧ t.workers = s.workers.set j w1
      ∧ w0 ≠ WorkerPC.finished
      ∧ ((t.main = s.main ∧ (w0 = WorkerPC.done → w1 = WorkerPC.finished))
          ∨ ∃ e, w0 = WorkerPC.sendErr e ∧ w1 = WorkerPC.done
              ∧ t.main = MainPC.returned (some e) ∧ s.main = MainPC.recv) := by
  unfold workerSteps at h
  split at h
  · rename_i i op data hw
    split at h <;> simp only [List.mem_singleton] at h <;> subst h
    · exact ⟨_, _, hw, rfl, by simp, Or.inl ⟨rfl, by simp⟩⟩
    · exact ⟨_, _, hw, rfl, by simp, Or.inl ⟨rfl, by simp⟩⟩
  · rename_i i op req hw
    split at h <;> simp only [List.mem_singleton] at h <;> subst h
    · exact ⟨_, _, hw, rfl, by simp, Or.inl ⟨rfl, by simp⟩⟩
    · exact ⟨_, _, hw, rfl, by simp, Or.inl ⟨rfl, by simp⟩⟩
  · rename_i e hw
    split at h
    · simp only [List.mem_singleton] at h
      subst h
      exact ⟨_, _, hw, rfl, by simp, Or.inl ⟨rfl, by simp⟩⟩
    · split at h
      · rename_i hm
        simp only [List.mem_singleton] at h
        subst h
        exact ⟨_, _, hw, rfl, by simp, Or.inr ⟨e, rfl, rfl, rfl, hm⟩⟩
      · simp at h
  · rename_i hw
    simp only [List.mem_singleton] at h
    subst h
    exact ⟨_, _, hw, rfl, by simp, Or.inl ⟨rfl, fun _ => rfl⟩⟩
  · simp at h
  · simp at h
  · simp at h

theorem mainSteps_not_error (ops : List UploadOperation) (s t : State)
    (h : t ∈ mainSteps ops s) (e : UploadOperationError) :
    t.main ≠ MainPC.returned (some e) := by
  unfold mainSteps at h
  split at h
  · split at h
    · split at h <;> simp only [List.mem_singleton] at h <;> subst h <;> simp
    · simp only [List.mem_singleton] at h
      subst h
      simp
  · simp at h
  · split at h
    · simp only [List.mem_singleton] at h
      subst h
      simp
    · simp at h
  · simp at h
  · simp at h

theorem closerSteps_same (s t : State) (h : t ∈ closerSteps s) :
    t.main = s.main ∧ t.workers = s.workers := by
  unfold closerSteps at h
  split at h
  · simp at h
  · split at h
    · simp only [List.mem_singleton] at h
      subst h
      exact ⟨rfl, rfl⟩
    · simp at h
  · simp only [List.mem_singleton] at h
    subst h
    exact ⟨rfl, rfl⟩
  · simp at h

theorem senderOK_next (env : Env) (ops : List UploadOperation) (file : File) (s t : State)
    (hinv : Inv env ops file s) (hs : SenderOK env ops file s) (h : t ∈ next env ops s) :
    SenderOK env ops file t := by
  intro e he
  rcases (mem_next env ops s t).mp h with h | h | ⟨j, _, h⟩
  · exact absurd he (mainSteps_not_error ops s t h e)
  · obtain ⟨h1, h2⟩ := closerSteps_same s t h
    rw [h1] at he
    rw [h2]
    exact hs e he
  · obtain ⟨w0, w1, hw0, hset, hnf, hcase⟩ := workerSteps_shape env s t j h
    have hj : j < s.workers.length := (List.getElem?_eq_some_iff.mp hw0).1
    rcases hcase with ⟨hmain, hdone⟩ | ⟨e1, hw0e, hw1, hmain, _⟩
    · rw [hmain] at he
      obtain ⟨j1, w, op, data, hw, hwd, hop, hch, herr⟩ := hs e he
      by_cases hjj : j1 = j
      · subst hjj
        rw [hw0] at hw
        simp only [Option.some.injEq] at hw
        subst hw
        have hd : w0 = WorkerPC.done := by
          rcases hwd with hwd | hwd
          · exact hwd
          · exact absurd hwd hnf
        refine ⟨j1, w1, op, data, ?_, Or.inr (hdone hd), hop, hch, herr⟩
        rw [hset, List.getElem?_set_self hj]
      · refine ⟨j1, w, op, data, ?_, hwd, hop, hch, herr⟩
        rw [hset, List.getElem?_set_ne (fun h => hjj h.symm)]
        exact hw
    · rw [hmain] at he
      simp only [MainPC.returned.injEq, Option.some.injEq] at he
      subst he
      subst hw0e
      obtain ⟨op, data, hop, hch, herr⟩ := hinv.workers j _ hw0
      refine ⟨j, w1, op, data, ?_, Or.inl hw1, hop, hch, herr⟩
      rw [hset, List.getElem?_set_self hj]

theorem senderOK_run (env : Env) (ops : List UploadOperation) (file : File) (sched : List Nat)
    (s : State) (hinv : Inv env ops file s) (hs : SenderOK env ops file s) :
    SenderOK env ops file (run env ops sched s) := by
  induction sched generalizing s with
  | nil => exact hs
  | cons c rest ih =>
    simp only [run, List.foldl_cons]
    by_cases hn : next env ops s = []
    · rw [stepWith_rest env ops s c hn]
      exact ih s hinv hs
    · have hmem := stepWith_mem env ops s c hn
      exact ih _ (inv_next env ops file s _ hinv hmem) (senderOK_next env ops file s _ hinv hs hmem)

/-- C18, amended: whenever `Upload` has returned, `chunk` has succeeded for
every operation and a `sendChunk` goroutine has been started for each.  If it
has returned nil, every one of these goroutines has ended.  If it has returned
an error, one of these goroutines is past its send, and the error is the one
that it sent for its own operation; the other goroutines need not have ended. -/
theorem Upload_return_waits (env : Env) (ops : List UploadOperation) (file : File)
    (sched : List Nat) (r : Option UploadOperationError)
    (h : (Upload env ops file sched).main = MainPC.returned r) :
    (Upload env ops file sched).workers.length = ops.length
      ∧ (∀ (i : Nat) (hi : i < ops.length), ∃ data, (chunk ops[i] file).1 = ChunkResult.ret data)
      ∧ (r = none → ∀ w ∈ (Upload env ops file sched).workers, w = WorkerPC.finished)
      ∧ (∀ e, r = some e →
          ∃ (j : Nat) (w : WorkerPC) (op : UploadOperation) (data : List Byte),
            (Upload env ops file sched).workers[j]? = some w
              ∧ (w = WorkerPC.done ∨ w = WorkerPC.finished)
              ∧ ops[j]? = some op ∧ (chunk op file).1 = ChunkResult.ret data
              ∧ (sendChunk env j op data).errs = some e) := by
  have hinv := inv_Upload env ops file sched
  have hM := hinv.main
  refine ⟨?_, ?_, ?_, ?_⟩
  · cases r with
    | none =>
      simp only [MainOK, h] at hM
      exact hM.1
    | some e =>
      simp only [MainOK, h] at hM
      exact hM.1
  · exact fun i hi => Upload_past_loop_chunks env ops file sched (Or.inr ⟨r, h⟩) i hi
  · intro hr w hw
    subst hr
    obtain ⟨_, _, hfin⟩ := returned_nil_finished env ops file _ hinv h
    obtain ⟨j, hj, hjw⟩ := List.getElem_of_mem hw
    exact hfin j w (by rw [List.getElem?_eq_getElem hj, hjw])
  · intro e hr
    subst hr
    have hs : SenderOK env ops file (Upload env ops file sched) :=
      senderOK_run env ops file sched _ (inv_initial env ops file)
        (by intro e he; simp [initial] at he)
    exact hs e h

theorem Upload_return_waits_witness :
    ((Upload okEnv singleOperation (testFile 20) (List.replicate 9 0)).workers.length
          = singleOperation.length
        ∧ ∀ w ∈ (Upload okEnv singleOperation (testFile 20) (List.replicate 9 0)).workers,
            w = WorkerPC.finished)
      ∧ ((Upload secondFailsEnv testOperations (testFile 64)
            [0, 0, 0, 0, 0, 0, 1, 1, 1]).workers.length = testOperations.length
        ∧ ∃ (j : Nat) (w : WorkerPC) (op : UploadOperation) (data : List Byte),
            (Upload secondFailsEnv testOperations (testFile 64)
                [0, 0, 0, 0, 0, 0, 1, 1, 1]).workers[j]? = some w
              ∧ (w = WorkerPC.done ∨ w = WorkerPC.finished)
              ∧ testOperations[j]? = some op
              ∧ (chunk op (testFile 64)).1 = ChunkResult.ret data
              ∧ (sendChunk secondFailsEnv j op data).errs = some secondError) :=
  ⟨⟨(Upload_return_waits okEnv singleOperation (testFile 20) (List.replicate 9 0) none
        (by decide)).1,
      (Upload_return_waits okEnv singleOperation (testFile 20) (List.replicate 9 0) none
        (by decide)).2.2.1 rfl⟩,
    ⟨(Upload_return_waits secondFailsEnv testOperations (testFile 64)
        [0, 0, 0, 0, 0, 0, 1, 1, 1] (some secondError) (by decide)).1,
      (Upload_return_waits secondFailsEnv testOperations (testFile 64)
        [0, 0, 0, 0, 0, 0, 1, 1, 1] (some secondError) (by decide)).2.2.2 secondError rfl⟩⟩

theorem chunk_calls (op : UploadOperation) (f : File) :
    (chunk op f).2.calls = f.calls ++ chunkCalls op := by
  unfold chunk chunkWith chunkCalls
  split
  · rename_i off len _ _
    by_cases h1 : off < 0
    · simp [File.Seek, h1]
    · by_cases h2 : len < 0 ∨ maxAlloc < len
      · simp [File.Seek, h1, h2]
      · simp only [File.Seek, h1, h2, if_false, File.Read, false_or]
        split_ifs <;> simp
  · simp

theorem fileOK_mainSteps (ops : List UploadOperation) (file : File) (s t : State)
    (hf : FileOK ops file s) (h : t ∈ mainSteps ops s) : FileOK ops file t := by
  obtain ⟨n, hn, hcalls, hloop⟩ := hf
  unfold mainSteps at h
  split at h
  · rename_i i hmain
    have hin := hloop i hmain
    subst hin
    split at h
    · rename_i op hop
      obtain ⟨hi, hiop⟩ := List.getElem?_eq_some_iff.mp hop
      have hnew : ∀ f, f = (chunk op s.file).2 →
          f.calls = file.calls ++ (ops.take (i + 1)).flatMap chunkCalls := by
        intro f hfe
        rw [hfe, chunk_calls, hcalls, List.take_succ, hop]
        simp [List.flatMap_append]
      split at h <;> rename_i hch <;> simp only [List.mem_singleton] at h <;> subst h
      · exact ⟨i + 1, hi, hnew _ (by rw [hch]), fun k hk => by simpa using hk.symm⟩
      · exact ⟨i + 1, hi, hnew _ (by rw [hch]), fun k hk => by simp at hk⟩
      · exact ⟨i + 1, hi, hnew _ (by rw [hch]), fun k hk => by simp at hk⟩
    · simp only [List.mem_singleton] at h
      subst h
      exact ⟨i, hn, hcalls, fun k hk => by simp at hk⟩
  · simp at h
  · split at h
    · simp only [List.mem_singleton] at h
      subst h
      exact ⟨n, hn, hcalls, fun k hk => by simp at hk⟩
    · simp at h
  · simp at h
  · simp at h

/-- A move of a `sendChunk` goroutine leaves the file handle as it is, and
the goroutine running `Upload` either stays or goes from its receive to its
return. -/
theorem workerSteps_file (env : Env) (s t : State) (j : Nat) (h : t ∈ workerSteps env s j) :
    t.file = s.file ∧ (t.main = s.main ∨ (s.main = MainPC.recv ∧ ∃ r, t.main = MainPC.returned r)) := by
  unfold workerSteps at h
  split at h
  · split at h <;> simp only [List.mem_singleton] at h <;> subst h <;> exact ⟨rfl, Or.inl rfl⟩
  · split at h <;> simp only [List.mem_singleton] at h <;> subst h <;> exact ⟨rfl, Or.inl rfl⟩
  · split at h
    · simp only [List.mem_singleton] at h
      subst h
      exact ⟨rfl, Or.inl rfl⟩
    · split at h
      · rename_i hm
        simp only [List.mem_singleton] at h
        subst h
        exact ⟨rfl, Or.inr ⟨hm, _, rfl⟩⟩
      · simp at h
  · simp only [List.mem_singleton] at h
    subst h
    exact ⟨rfl, Or.inl rfl⟩
  · simp at h
  · simp at h
  · simp at h

/-- A move of the closing goroutine leaves the file handle and the goroutine
running `Upload` as they are. -/
theorem closerSteps_file (s t : State) (h : t ∈ closerSteps s) :
    t.file = s.file ∧ t.main = s.main := by
  unfold closerSteps at h
  split at h
  · simp at h
  · split at h
    · simp only [List.mem_singleton] at h
      subst h
      exact ⟨rfl, rfl⟩
    · simp at h
  · simp only [List.mem_singleton] at h
    subst h
    exact ⟨rfl, rfl⟩
  · simp at h

theorem fileOK_next (env : Env) (ops : List UploadOperation) (file : File) (s t : State)
    (hf : FileOK ops file s) (h : t ∈ next env ops s) : FileOK ops file t := by
  rcases (mem_next env ops s t).mp h with h | h | ⟨j, _, h⟩
  · exact fileOK_mainSteps ops file s t hf h
  · obtain ⟨h1, h2⟩ := closerSteps_file s t h
    obtain ⟨n, hn, hcalls, hloop⟩ := hf
    exact ⟨n, hn, by rw [h1]; exact hcalls, fun i hi => hloop i (by rw [← h2]; exact hi)⟩
  · obtain ⟨h1, h2⟩ := workerSteps_file env s t j h
    obtain ⟨n, hn, hcalls, hloop⟩ := hf
    refine ⟨n, hn, by rw [h1]; exact hcalls, ?_⟩
    intro i hi
    rcases h2 with h2 | ⟨_, r, h2⟩
    · exact hloop i (by rw [← h2]; exact hi)
    · rw [h2] at hi
      simp at hi

theorem fileOK_run (env : Env) (ops : List UploadOperation) (file : File) (sched : List Nat)
    (s : State) (hf : FileOK ops file s) : FileOK ops file (run env ops sched s) := by
  induction sched generalizing s with
  | nil => exact hf
  | cons c rest ih =>
    simp only [run, List.foldl_cons]
    apply ih
    by_cases hn : next env ops s = []
    · rw [stepWith_rest env ops s c hn]
      exact hf
    · exact fileOK_next env ops file s _ hf (stepWith_mem env ops s c hn)

/-- C19: in every state of every run of `Upload`, the calls issued on the
file handle are the calls of `chunk` for the first `n` operations of the list,
operation by operation in the order of the list, each operation's seek
directly followed by its own read; no other goroutine issues a call on the
handle. -/
theorem Upload_file_calls_in_order (env : Env) (ops : List UploadOperation) (file : File)
    (sched : List Nat) :
    (∃ n, n ≤ ops.length
        ∧ (Upload env ops file sched).file.calls
            = file.calls ++ (ops.take n).flatMap chunkCalls)
      ∧ (∀ op f, (chunk op f).2.calls = f.calls ++ chunkCalls op)
      ∧ (∀ (s t : State) (j : Nat), t ∈ workerSteps env s j → t.file = s.file)
      ∧ (∀ s t : State, t ∈ closerSteps s → t.file = s.file) := by
  refine ⟨?_, chunk_calls, ?_, ?_⟩
  · obtain ⟨n, hn, hcalls, _⟩ := fileOK_run env ops file sched (initial file)
      ⟨0, Nat.zero_le _, by simp [initial], fun i hi => by simpa [initial] using hi.symm⟩
    exact ⟨n, hn, hcalls⟩
  · intro s t j h
    exact (workerSteps_file env s t j h).1
  · intro s t h
    exact (closerSteps_file s t h).1

/-- C20: for two operations without a url, no run of `Upload` ever gets past
`wg.Wait()` or closes `errs`; the run in which the scheduler always takes the
first possible move comes to rest with `Upload` returned, the first goroutine
ended and the second one still in its send, which nothing will receive. -/
theorem Upload_second_sender_blocks (sched : List Nat) :
    ((Upload okEnv noUrlOperations (testFile 64) sched).closed = false
        ∧ ((Upload okEnv noUrlOperations (testFile 64) sched).closer = CloserPC.absent
            ∨ (Upload okEnv noUrlOperations (testFile 64) sched).closer = CloserPC.waiting))
      ∧ (Upload okEnv noUrlOperations (testFile 64) (List.replicate 14 0)).workers
          = [WorkerPC.finished, WorkerPC.sendErr noUrlSecondError]
      ∧ next okEnv noUrlOperations (Upload okEnv noUrlOperations (testFile 64)
          (List.replicate 14 0)) = [] := by
  refine ⟨?_, by decide, by decide⟩
  have hinv := inv_Upload okEnv noUrlOperations (testFile 64) sched
  have hM := hinv.main
  have hC := hinv.closer
  generalize Upload okEnv noUrlOperations (testFile 64) sched = s at hinv hM hC
  have hkey : s.wg = 0 → s.closer ≠ CloserPC.absent → False := by
    intro hwg hcl
    have hlen : s.workers.length = 2 := by
      unfold MainOK at hM
      split at hM
      · exact absurd hM.2 hcl
      · exact absurd hM.2.1 hcl
      · exact hM.1
      · exact hM.1
      · exact hM.1
      · exact absurd hM.1 hcl
    have hfin : ∀ (j : Nat) (w : WorkerPC), s.workers[j]? = some w → w = WorkerPC.finished :=
      fun j w hw => pending_eq_zero _ j w hw (by rw [← hinv.wg]; exact hwg)
    have hret : ∀ j (hj : j < 2), ∃ data,
        s.main = MainPC.returned (sendChunk okEnv j noUrlOperations[j] data).errs
          ∧ (sendChunk okEnv j noUrlOperations[j] data).errs
              = some { Operation := noUrlOperations[j], Err := destinationError } := by
      intro j hj
      have hget := List.getElem?_eq_getElem (show j < s.workers.length by omega)
      rw [hfin j _ hget] at hget
      obtain ⟨op, data, hop, _, hdone⟩ := hinv.workers j _ hget
      obtain ⟨_, hjop⟩ := List.getElem?_eq_some_iff.mp hop
      subst hjop
      have herr : (sendChunk okEnv j noUrlOperations[j] data).errs
          = some { Operation := noUrlOperations[j], Err := destinationError } := by
        interval_cases j <;> rfl
      refine ⟨data, ?_, herr⟩
      rcases hdone with hdone | hdone
      · rw [herr] at hdone
        simp at hdone
      · exact hdone
    obtain ⟨d0, h0, e0⟩ := hret 0 (by decide)
    obtain ⟨d1, h1, e1⟩ := hret 1 (by decide)
    rw [e0] at h0
    rw [e1, h0] at h1
    revert h1
    decide
  unfold CloserOK at hC
  split at hC
  · rename_i hc
    exact ⟨hC, Or.inl hc⟩
  · rename_i hc
    exact ⟨hC, Or.inr hc⟩
  · rename_i hc
    exact absurd (hkey hC.2 (by rw [hc]; simp)) id
  · rename_i hc
    exact absurd (hkey hC.2 (by rw [hc]; simp)) id

/-! ## `chunk`: end of file, failed seek, allocation -/

/-- C21, as the claim has it, fails: with offset 20 and length 2^62 on the
file of 20 bytes, `chunk` does not return the error of the read: `make`
panics on the length, after the seek and before any read. -/
theorem chunk_past_end_huge_length :
    chunk (patchOp "test" 20 4611686018427387904) (testFile 20)
        = (ChunkResult.abort,
            { testFile 20 with pos := 20, calls := [FileCall.seek 20] })
      ∧ (testFile 20).content.length ≤ 20 ∧ (0 : Int) < 4611686018427387904 := by
  decide

/-- C21, amended: with offset `o` and length `l > 0` present and a file of at
most `o` bytes, on a machine that can allocate `cap` bytes: if `l ≤ cap`,
`chunk` fails with `io.EOF`, the error of the read, and returns no buffer,
the seek and the read having both been issued; if `l > cap`, `make` panics
after the seek and no read is issued. -/
theorem chunk_past_end (cap : Int) (op : UploadOperation) (f : File) (o l : Int)
    (ho : op.Offset = some o) (hl : op.Length = some l) (hpos : 0 < l)
    (hsize : (f.content.length : Int) ≤ o) :
    (l ≤ cap →
        (chunkWith cap op f).1 = ChunkResult.err GoError.eof
          ∧ (chunkWith cap op f).2.calls
              = f.calls ++ [FileCall.seek o, FileCall.read l.toNat])
      ∧ (cap < l →
          (chunkWith cap op f).1 = ChunkResult.abort
            ∧ (chunkWith cap op f).2.calls = f.calls ++ [FileCall.seek o]) := by
  have h1 : ¬ o < 0 := by omega
  have h3 : ¬ l ≤ 0 := by omega
  have h4 : f.content.length - o.toNat = 0 := by omega
  constructor
  · intro hcap
    have h2 : ¬ (l < 0 ∨ cap < l) := by omega
    simp [chunkWith, ho, hl, File.Seek, File.Read, h1, h2, h3, h4]
  · intro hcap
    have h2 : l < 0 ∨ cap < l := Or.inr hcap
    simp [chunkWith, ho, hl, File.Seek, h1, h2]

theorem chunk_past_end_witness :
    ((chunkWith maxAlloc (patchOp "test" 20 10) (testFile 20)).1 = ChunkResult.err GoError.eof
        ∧ (chunkWith maxAlloc (patchOp "test" 20 10) (testFile 20)).2.calls
            = (testFile 20).calls ++ [FileCall.seek 20, FileCall.read (10 : Int).toNat])
      ∧ ((chunkWith maxAlloc (patchOp "test" 20 4611686018427387904) (testFile 20)).1
            = ChunkResult.abort
        ∧ (chunkWith maxAlloc (patchOp "test" 20 4611686018427387904) (testFile 20)).2.calls
            = (testFile 20).calls ++ [FileCall.seek 20]) :=
  ⟨(chunk_past_end maxAlloc (patchOp "test" 20 10) (testFile 20) 20 10 rfl rfl (by decide)
      (by simp [testFile])).1 (by decide),
    (chunk_past_end maxAlloc (patchOp "test" 20 4611686018427387904) (testFile 20) 20
      4611686018427387904 rfl rfl (by decide) (by simp [testFile])).2 (by decide)⟩

/-- C22: with offset and length present, when the seek fails `chunk` returns
the error of the seek and no buffer, and the seek is the only call issued on
the file: no read.  A negative offset makes the seek fail. -/
theorem chunk_seek_fails (op : UploadOperation) (f : File) (o l : Int) (e : GoError)
    (ho : op.Offset = some o) (hl : op.Length = some l) (hseek : (f.Seek o).1 = some e) :
    (chunk op f).1 = ChunkResult.err e
      ∧ (chunk op f).2.calls = f.calls ++ [FileCall.seek o]
      ∧ (chunk op f).2.pos = f.pos
      ∧ ∀ f1 : File, o < 0 → (f1.Seek o).1 = some (GoError.seekInvalid o) := by
  have hneg : o < 0 := by
    by_contra hge
    simp [File.Seek, hge] at hseek
  have he : e = GoError.seekInvalid o := by
    simp only [File.Seek, hneg, if_true, Option.some.injEq] at hseek
    exact hseek.symm
  subst he
  refine ⟨?_, ?_, ?_, ?_⟩
  · simp [chunk, chunkWith, ho, hl, File.Seek, hneg]
  · simp [chunk, chunkWith, ho, hl, File.Seek, hneg]
  · simp [chunk, chunkWith, ho, hl, File.Seek, hneg]
  · intro f1 h
    simp [File.Seek, h]

theorem chunk_seek_fails_witness :
    (chunk (patchOp "test" (-1) 10) (testFile 20)).1 = ChunkResult.err (GoError.seekInvalid (-1))
      ∧ (chunk (patchOp "test" (-1) 10) (testFile 20)).2.calls
          = (testFile 20).calls ++ [FileCall.seek (-1)]
      ∧ (chunk (patchOp "test" (-1) 10) (testFile 20)).2.pos = (testFile 20).pos
      ∧ ∀ f1 : File, (-1 : Int) < 0 → (f1.Seek (-1)).1 = some (GoError.seekInvalid (-1)) :=
  chunk_seek_fails (patchOp "test" (-1) 10) (testFile 20) (-1) 10 (GoError.seekInvalid (-1))
    rfl rfl (by decide)

/-- C23, as the claim has it, fails: the length 2^62 is present and not
negative, and `chunk` panics in `make` on it. -/
theorem chunk_huge_length_panics :
    (chunk (patchOp "test" 0 4611686018427387904) (testFile 20)).1 = ChunkResult.abort
      ∧ (patchOp "test" 0 4611686018427387904).Length = some 4611686018427387904
      ∧ (0 : Int) ≤ 4611686018427387904 := by
  decide

/-- C23, amended: for an operation with a length `l`, on a machine that can
allocate `cap` bytes.  If `0 ≤ l ≤ cap`, `chunk` returns a buffer or an error
and does not panic.  If `l` is negative or beyond `cap`, nothing before the
allocation looks at it: with an offset that is present and not negative the
seek is made and `make` panics, before any read; `chunk` gets away without the
panic only when the offset is absent or negative, by the bounds error or the
error of the seek. -/
theorem chunk_allocation (cap : Int) (op : UploadOperation) (f : File) (l : Int)
    (hl : op.Length = some l) :
    (0 ≤ l → l ≤ cap →
        (∃ buf, (chunkWith cap op f).1 = ChunkResult.ret buf)
          ∨ ∃ e, (chunkWith cap op f).1 = ChunkResult.err e)
      ∧ ((l < 0 ∨ cap < l) → ∀ o, op.Offset = some o → 0 ≤ o →
          chunkWith cap op f
            = (ChunkResult.abort,
                { f with pos := o.toNat, calls := f.calls ++ [FileCall.seek o] }))
      ∧ ((l < 0 ∨ cap < l) → (chunkWith cap op f).1 ≠ ChunkResult.abort →
          (op.Offset = none ∧ (chunkWith cap op f).1 = ChunkResult.err boundsError)
            ∨ ∃ o, op.Offset = some o ∧ o < 0
                ∧ (chunkWith cap op f).1 = ChunkResult.err (GoError.seekInvalid o)) := by
  refine ⟨?_, ?_, ?_⟩
  · intro h0 hcap
    have h2 : ¬ (l < 0 ∨ cap < l) := by omega
    cases ho : op.Offset with
    | none => exact Or.inr ⟨boundsError, by simp [chunkWith, ho]⟩
    | some o =>
      by_cases h1 : o < 0
      · exact Or.inr ⟨GoError.seekInvalid o, by simp [chunkWith, ho, hl, File.Seek, h1]⟩
      · cases hres : (chunkWith cap op f).1 with
        | ret buf => exact Or.inl ⟨buf, rfl⟩
        | err e => exact Or.inr ⟨e, rfl⟩
        | abort =>
          exfalso
          simp only [chunkWith, ho, hl, File.Seek, h1, h2, if_false, File.Read] at hres
          split_ifs at hres
  · intro hbad o ho h0
    have h1 : ¬ o < 0 := by omega
    simp [chunkWith, ho, hl, File.Seek, h1, hbad]
  · intro hbad hna
    cases ho : op.Offset with
    | none => exact Or.inl ⟨rfl, by simp [chunkWith, ho]⟩
    | some o =>
      by_cases h1 : o < 0
      · exact Or.inr ⟨o, rfl, h1, by simp [chunkWith, ho, hl, File.Seek, h1]⟩
      · exfalso
        apply hna
        simp [chunkWith, ho, hl, File.Seek, h1, hbad]

theorem chunk_allocation_witness :
    ((∃ buf, (chunkWith maxAlloc (patchOp "test" 0 10) (testFile 5)).1 = ChunkResult.ret buf)
        ∨ ∃ e, (chunkWith maxAlloc (patchOp "test" 0 10) (testFile 5)).1 = ChunkResult.err e)
      ∧ chunkWith maxAlloc (patchOp "test" 2 (-3)) (testFile 20)
          = (ChunkResult.abort,
              { testFile 20 with
                pos := (2 : Int).toNat, calls := (testFile 20).calls ++ [FileCall.seek 2] })
      ∧ chunkWith maxAlloc (patchOp "test" 0 4611686018427387904) (testFile 5)
          = (ChunkResult.abort,
              { testFile 5 with
                pos := (0 : Int).toNat, calls := (testFile 5).calls ++ [FileCall.seek 0] })
      ∧ (((patchOp "test" (-1) (-3)).Offset = none
            ∧ (chunkWith maxAlloc (patchOp "test" (-1) (-3)) (testFile 20)).1
                = ChunkResult.err boundsError)
          ∨ ∃ o, (patchOp "test" (-1) (-3)).Offset = some o ∧ o < 0
              ∧ (chunkWith maxAlloc (patchOp "test" (-1) (-3)) (testFile 20)).1
                  = ChunkResult.err (GoError.seekInvalid o)) :=
  ⟨(chunk_allocation maxAlloc (patchOp "test" 0 10) (testFile 5) 10 rfl).1
      (by decide) (by decide),
    (chunk_allocation maxAlloc (patchOp "test" 2 (-3)) (testFile 20) (-3) rfl).2.1
      (Or.inl (by decide)) 2 rfl (by decide),
    (chunk_allocation maxAlloc (patchOp "test" 0 4611686018427387904) (testFile 5)
      4611686018427387904 rfl).2.1 (Or.inr (by decide)) 0 rfl (by decide),
    (chunk_allocation maxAlloc (patchOp "test" (-1) (-3)) (testFile 20) (-3) rfl).2.2
      (Or.inl (by decide)) (by decide)⟩

end Asc
